import Mathlib

/-!
Verification of the weave-ce constrained-outfit engine.

The development shallowly embeds the Rust sources:
  * `weave-lib/src/bdd/closet_builder.rs` (ClosetBuilder, validation, build)
  * `bowtie-core/src/bdd/closet/complete_outfit.rs` (complete_outfit and its
    validation helpers)
  * `weave/src/zdd2/forest/trees.rs` (trees enumeration)

The decision-diagram node kernel (`bdd::node`) is not part of the provided
sources; its operations are modelled from the specification (§4.A, §4.B),
consistent with the expected diagrams asserted by the unit tests inside
`closet_builder.rs`.

Items and families are opaque identity tokens with a total order (spec §3);
they are modelled as natural numbers.
-/

/-- Items are opaque identity tokens with decidable equality and a total
order (spec §3); modelled as naturals. -/
abbrev Item := Nat

/-- Families are opaque identity tokens with decidable equality and a total
order (spec §3); modelled as naturals. -/
abbrev Family := Nat

/-- Decision-diagram nodes (spec §3): `Leaf false` is the `Never`/`FalseLeaf`
constant, `Leaf true` is `Always`/`TrueLeaf`, and `Branch item low high` is a
decision on `item` (`low` when unselected, `high` when selected).  The three
Rust node types (`bdd::node::Node` in bowtie-core, in weave-lib, and
`zdd2::forest::node::Node`) all share this shape. -/
inductive Node : Type where
  | Leaf : Bool → Node
  | Branch : Item → Node → Node → Node
deriving DecidableEq, Repr

/-- Modelled from the spec: the `branch` constructor of the node kernel
(§4.A), whose source (`bdd::node`) is not under `src/`: it "returns `low`
directly if `low == high` (reduction); otherwise returns the interned
`Branch(item, low, high)`". -/
def Node.branch (i : Item) (lo hi : Node) : Node :=
  if lo = hi then lo else Node.Branch i lo hi

/-- Modelled from the spec: Boolean negation `not(a)` of the combinator layer
(§4.B), a classical BDD apply that flips the leaves; the result is rebuilt
with the reducing `branch` constructor since every operation of the layer
"returns a reduced, ordered Node". -/
def Node.neg : Node → Node
  | Node.Leaf b => Node.Leaf (!b)
  | Node.Branch i lo hi => Node.branch i lo.neg hi.neg

/-- Modelled from the spec: `Node::xor(item, node)` of the combinator layer
(§4.B), the xor of the single variable `item` with `node`, with the newly
introduced item as the top variable.  Shannon expansion on `item` gives
low cofactor `node` and high cofactor `not node`; the edge policy
`xor(x, false-leaf) = branch(x, false-leaf, true-leaf)` is the special case
`node = Leaf false`.  This matches the expected diagrams asserted by the
unit tests in `closet_builder.rs` (the freshly xored item becomes the root
of the family node). -/
def Node.xor (i : Item) (n : Node) : Node :=
  Node.branch i n n.neg

/-- Modelled from the spec: `and(a, b)` of the combinator layer (§4.B),
classical BDD apply with the short-circuits `and(true-leaf, n) = n` and
`and(false-leaf, _) = false-leaf`.  The recursion expands the left operand
first; in `build` the left operand's variables always precede the right
operand's in the diagram order, where this coincides with the spec's
recursion on the smaller top variable, and it reproduces the expected
root diagrams asserted by the unit tests in `closet_builder.rs`. -/
def Node.and : Node → Node → Node
  | Node.Leaf true, n => n
  | Node.Leaf false, _ => Node.Leaf false
  | Node.Branch i lo hi, n => Node.branch i (lo.and n) (hi.and n)

/-- Modelled from the spec: `restrict(n, item, value)` of the combinator
layer (§4.B): "recursively rewrite the diagram, replacing any
`Branch(item, lo, hi)` with `lo` if `value=false` or `hi` if `value=true`;
leave other branches alone, recursing into children"; the result is rebuilt
with the reducing `branch` constructor. -/
def Node.restrict : Node → Item → Bool → Node
  | Node.Leaf b, _, _ => Node.Leaf b
  | Node.Branch i lo hi, item, val =>
    if i = item then
      if val then hi.restrict item val else lo.restrict item val
    else
      Node.branch i (lo.restrict item val) (hi.restrict item val)

/-- Semantics of a node as a Boolean function of the item assignment
(spec §3: `low` is taken when the item is unselected, `high` when it is
selected). -/
def Node.eval : Node → (Item → Bool) → Bool
  | Node.Leaf b, _ => b
  | Node.Branch i lo hi, a => if a i then hi.eval a else lo.eval a

/-- `n.hasVar j` holds when variable `j` labels some branch of `n`. -/
def Node.hasVar (j : Item) : Node → Bool
  | Node.Leaf _ => false
  | Node.Branch i lo hi => (j = i : Bool) || lo.hasVar j || hi.hasVar j

/-- Number of constructors of a node (used for termination measures). -/
def Node.size : Node → Nat
  | Node.Leaf _ => 1
  | Node.Branch _ lo hi => lo.size + hi.size + 1

/-- Length in edges of the longest root-to-leaf path. -/
def Node.height : Node → Nat
  | Node.Leaf _ => 0
  | Node.Branch _ lo hi => max lo.height hi.height + 1

/-- Reducedness (spec §3): no reachable branch has equal children. -/
def Node.noRedundant : Node → Bool
  | Node.Leaf _ => true
  | Node.Branch _ lo hi => (lo != hi) && lo.noRedundant && hi.noRedundant

/-- The reducedness invariant exactly as claim C8 words it: no branch has
equal children and no branch has both children equal to the false leaf. -/
def Node.reducedInv : Node → Bool
  | Node.Leaf _ => true
  | Node.Branch _ lo hi =>
    (lo != hi) && !(lo == Node.Leaf false && hi == Node.Leaf false) &&
      lo.reducedInv && hi.reducedInv

/-- No variable of a branch reoccurs in its subdiagrams (a consequence of
the orderedness invariant of spec §3: variables are strictly increasing
along every path, hence never repeat below themselves). -/
def Node.noRepeat : Node → Bool
  | Node.Leaf _ => true
  | Node.Branch i lo hi =>
    !lo.hasVar i && !hi.hasVar i && lo.noRepeat && hi.noRepeat

/-- All branch variables of the node are strictly greater than `i`. -/
def Node.allGt (i : Item) : Node → Bool
  | Node.Leaf _ => true
  | Node.Branch j lo hi => decide (i < j) && lo.allGt i && hi.allGt i

/-- Orderedness invariant (spec §3): along any path from root to leaf the
branch variables are strictly increasing. -/
def Node.ordered : Node → Bool
  | Node.Leaf _ => true
  | Node.Branch i lo hi => lo.allGt i && hi.allGt i && lo.ordered && hi.ordered

/-- Lookup in a `BTreeMap` modelled as a key-sorted association list. -/
def btreeGet {α : Type} (k : Nat) : List (Nat × α) → Option α
  | [] => none
  | (k', v) :: rest => if k = k' then some v else btreeGet k rest

/-- `map.entry(k).or_insert(vec![]).push(v)` on a `BTreeMap<_, Vec<_>>`
modelled as a key-sorted association list. -/
def btreePush (k : Nat) (v : Item) : List (Nat × List Item) → List (Nat × List Item)
  | [] => [(k, [v])]
  | (k', vs) :: rest =>
    if k = k' then (k', vs ++ [v]) :: rest
    else if k < k' then (k, [v]) :: (k', vs) :: rest
    else (k', vs) :: btreePush k v rest

/-- `map.entry(k).or_insert(v)` on a `BTreeMap` (insert only when the key is
absent), modelled on a key-sorted association list. -/
def btreeInsertNew (k : Nat) (v : Nat) : List (Nat × Nat) → List (Nat × Nat)
  | [] => [(k, v)]
  | (k', v') :: rest =>
    if k = k' then (k', v') :: rest
    else if k < k' then (k, v) :: (k', v') :: rest
    else (k', v') :: btreeInsertNew k v rest

/-- Effectful map over a list in the `Option` monad, short-circuiting at the
first `none`; models a Rust iterator chain whose `.unwrap()`/`.expect()` can
panic: `none` stands for the panic. -/
def mapOpt {α β : Type} (f : α → Option β) : List α → Option (List β)
  | [] => some []
  | a :: l =>
    match f a with
    | none => none
    | some b => (mapOpt f l).map (b :: ·)

/-- Helper of `dedupBySnd`: drop the incoming element when its item pair
equals the pair of the last retained element `last`, otherwise retain it. -/
def dedupBySndAux (last : Family × List Item) :
    List (Family × List Item) → List (Family × List Item)
  | [] => []
  | y :: rest =>
    if last.2 = y.2 then dedupBySndAux last rest else y :: dedupBySndAux y rest

/-- `Vec::dedup_by(|a, b| a.1 == b.1)` from `find_illegal_rules`: removes an
element when its item pair equals the item pair of the last retained element,
so only consecutive duplicates (with respect to the pair) are dropped. -/
def dedupBySnd : List (Family × List Item) → List (Family × List Item)
  | [] => []
  | x :: rest => x :: dedupBySndAux x rest

/-- Build-time error taxonomy (`bdd::closet_builder::Error`). -/
inductive Error : Type where
  | ConflictingFamilies : List (Item × List Family) → Error
  | InclusionError : List (Family × List Item) → Error
  | ExclusionError : List (Family × List Item) → Error
deriving DecidableEq, Repr

/-- `ClosetBuilder` state (`closet_builder.rs`): the four `BTreeMap`s are
modelled as key-sorted association lists. -/
structure ClosetBuilder : Type where
  contents : List (Family × List Item)
  item_index : List (Item × Family)
  exclusions : List (Item × List Item)
  inclusions : List (Item × List Item)
deriving DecidableEq, Repr

/-- `ClosetBuilder::new` (`closet_builder.rs`). -/
def ClosetBuilder.new : ClosetBuilder := ⟨[], [], [], []⟩

/-- `ClosetBuilder::add_item` (`closet_builder.rs`): push the item into the
family's vector and record the item's family in the index when absent. -/
def ClosetBuilder.add_item (b : ClosetBuilder) (family : Family) (item : Item) :
    ClosetBuilder :=
  { b with
    contents := btreePush family item b.contents
    item_index := btreeInsertNew item family b.item_index }

/-- `ClosetBuilder::add_exclusion_rule` (`closet_builder.rs`): symmetric, the
pair is recorded in both directions. -/
def ClosetBuilder.add_exclusion_rule (b : ClosetBuilder)
    (selection exclusion : Item) : ClosetBuilder :=
  { b with
    exclusions := btreePush exclusion selection (btreePush selection exclusion b.exclusions) }

/-- `ClosetBuilder::add_inclusion_rule` (`closet_builder.rs`): directional. -/
def ClosetBuilder.add_inclusion_rule (b : ClosetBuilder)
    (selection inclusion : Item) : ClosetBuilder :=
  { b with inclusions := btreePush selection inclusion b.inclusions }

/-- `ClosetBuilder::find_conflicting_families` (`closet_builder.rs`): an item
whose indexed family differs from the family it is listed under.  The outer
`Option` models the `.expect(...)` panic when an item of `contents` is
missing from `item_index`. -/
def ClosetBuilder.find_conflicting_families (b : ClosetBuilder) :
    Option (List (Item × List Family)) :=
  (mapOpt (fun p =>
      (mapOpt (fun item =>
          (btreeGet item b.item_index).map (fun item_family =>
            if item_family ≠ p.1 then some (item, [item_family, p.1]) else none))
        p.2))
    b.contents).map (fun ll => ll.flatten.filterMap id)

/-- `ClosetBuilder::find_illegal_rules` (`closet_builder.rs`): rules whose
two items share a family; each hit carries the shared family and the two
items sorted.  The per-selection `collect::<HashSet<_>>()` is modelled as
`List.dedup`; the final `dedup_by(|a, b| a.1 == b.1)` is `dedupBySnd`.  The
outer `Option` models the `.expect(...)` panics on items missing from the
index. -/
def find_illegal_rules (rules : List (Item × List Item))
    (item_index : List (Item × Family)) : Option (List (Family × List Item)) :=
  (mapOpt (fun r =>
      (btreeGet r.1 item_index).bind (fun selection_family =>
        (mapOpt (fun item =>
            (btreeGet item item_index).map (fun item_family =>
              if selection_family = item_family then
                some (selection_family, List.insertionSort (· ≤ ·) [r.1, item])
              else none))
          r.2).map (fun opts => opts.dedup)))
    rules).map (fun ll => dedupBySnd (ll.flatten.filterMap id))

/-- `ClosetBuilder::find_illegal_include_rules` (`closet_builder.rs`). -/
def ClosetBuilder.find_illegal_include_rules (b : ClosetBuilder) :
    Option (List (Family × List Item)) :=
  find_illegal_rules b.inclusions b.item_index

/-- `ClosetBuilder::find_illegal_exclude_rules` (`closet_builder.rs`). -/
def ClosetBuilder.find_illegal_exclude_rules (b : ClosetBuilder) :
    Option (List (Family × List Item)) :=
  find_illegal_rules b.exclusions b.item_index

/-- `ClosetBuilder::validate` (`closet_builder.rs`): the three checks run in
the fixed order conflicting families, illegal inclusion rules, illegal
exclusion rules, returning the first non-empty class.  The outer `Option`
propagates the possible index-lookup panics. -/
def ClosetBuilder.validate (b : ClosetBuilder) : Option (Except Error Unit) :=
  match b.find_conflicting_families with
  | none => none
  | some conflicts =>
    if conflicts ≠ [] then some (Except.error (Error.ConflictingFamilies conflicts))
    else
      match b.find_illegal_include_rules with
      | none => none
      | some incs =>
        if incs ≠ [] then some (Except.error (Error.InclusionError incs))
        else
          match b.find_illegal_exclude_rules with
          | none => none
          | some excs =>
            if excs ≠ [] then some (Except.error (Error.ExclusionError excs))
            else some (Except.ok ())

/-- The per-family node of `ClosetBuilder::build`:
`items.iter().fold(FalseLeaf, |left_branch, item| Node::xor(item, left_branch))`. -/
def familyNode (items : List Item) : Node :=
  items.foldl (fun left_branch item => Node.xor item left_branch) (Node.Leaf false)

/-- The root diagram of `ClosetBuilder::build`: the family nodes are combined
left to right with `&` (logical and) starting from `TrueLeaf`.  Exclusions
and inclusions contribute nothing here (they are only consulted by
`validate`). -/
def ClosetBuilder.buildRoot (b : ClosetBuilder) : Node :=
  (b.contents.map (fun p => familyNode p.2)).foldl
    (fun left_branch family_node => left_branch.and family_node) (Node.Leaf true)

/-- The compiled closet (spec §3): the item-to-family index together with the
root node (`Closet::new(item_index, root)`). -/
structure Closet : Type where
  item_index : List (Item × Family)
  root : Node
deriving DecidableEq, Repr

/-- `Closet::get_family` — index lookup (spec §3: the closet holds an
item-to-family index). -/
def Closet.get_family (c : Closet) (item : Item) : Option Family :=
  btreeGet item c.item_index

/-- `ClosetBuilder::build` (`closet_builder.rs`): validate, then build the
root by xor-folding each family and and-folding the family nodes. -/
def ClosetBuilder.build (b : ClosetBuilder) : Option (Except Error Closet) :=
  match b.validate with
  | none => none
  | some (Except.error e) => some (Except.error e)
  | some (Except.ok _) => some (Except.ok ⟨b.item_index, b.buildRoot⟩)

/-- An outfit: the item list returned by completion (`Outfit::new`). -/
structure Outfit : Type where
  items : List Item
deriving DecidableEq, Repr

/-- Query-time error taxonomy (`core::OutfitError`); the source's name for
the conflicting-selections variant is `IncompatibleSelections` (the spec
calls it `ConflictingItems`). -/
inductive OutfitError : Type where
  | UnknownItems : List Item → OutfitError
  | MultipleItemsPerFamily : List (Family × List Item) → OutfitError
  | IncompatibleSelections : List Item → OutfitError
deriving DecidableEq, Repr

/-- `find_unknown_items` (`complete_outfit.rs`): the selections absent from
the closet's item index, `Some` exactly when that list is non-empty. -/
def find_unknown_items (closet : Closet) (selections : List Item) :
    Option (List Item) :=
  let unknown_items := selections.filter (fun item => (closet.get_family item).isNone)
  if unknown_items = [] then none else some unknown_items

/-- `find_duplicate_items` (`complete_outfit.rs`): group the selections by
their family and keep the families with two or more selections.  The outer
`Option` models the `.unwrap()` panic when a selection has no family. -/
def find_duplicate_items (closet : Closet) (selections : List Item) :
    Option (Option (List (Family × List Item))) :=
  match mapOpt (fun item => (closet.get_family item).map (fun f => (f, item))) selections with
  | none => none
  | some pairs =>
    let duplicates := (pairs.foldl (fun m q => btreePush q.1 q.2 m) []).filter
      (fun p => 1 < p.2.length)
    some (if duplicates = [] then none else some duplicates)

/-- `find_conflicting_items` (`complete_outfit.rs`): restrict the root by
every selection set to true; report the sorted selections exactly when the
result is the `Never` leaf. -/
def find_conflicting_items (closet : Closet) (selections : List Item) :
    Option (List Item) :=
  let root := selections.foldl (fun new_root selection => new_root.restrict selection true)
    closet.root
  if root = Node.Leaf false then some (List.insertionSort (· ≤ ·) selections) else none

/-- `validate` (`complete_outfit.rs`): unknown items, then duplicate items
per family, then conflicting items; `some none` means all checks passed and
the outer `none` propagates the possible panic of `find_duplicate_items`. -/
def validateSelections (closet : Closet) (selections : List Item) :
    Option (Option OutfitError) :=
  match find_unknown_items closet selections with
  | some items => some (some (OutfitError.UnknownItems items))
  | none =>
    match find_duplicate_items closet selections with
    | none => none
    | some (some items) => some (some (OutfitError.MultipleItemsPerFamily items))
    | some none =>
      match find_conflicting_items closet selections with
      | some items => some (some (OutfitError.IncompatibleSelections items))
      | none => some none

/-- The completion walk of `complete_outfit` (`complete_outfit.rs`): at a
branch, descend into `low` without taking the item when `high` is the false
leaf, otherwise push the item and descend into `high`; stop at a leaf. -/
def walk : Node → List Item → List Item
  | Node.Leaf _, outfit_items => outfit_items
  | Node.Branch id lo hi, outfit_items =>
    if hi = Node.Leaf false then walk lo outfit_items
    else walk hi (outfit_items ++ [id])

/-- The leaf at which the completion walk of `complete_outfit` terminates:
the node evolves to `low` when `high` is the false leaf and to `high`
otherwise, until a leaf is reached. -/
def walkEnd : Node → Node
  | Node.Leaf b => Node.Leaf b
  | Node.Branch _ lo hi =>
    if hi = Node.Leaf false then walkEnd lo else walkEnd hi

/-- Fuel-counted version of the completion walk: each unit of fuel pays for
one iteration of the `loop` in `complete_outfit`; `none` means the fuel ran
out before a leaf was reached. -/
def walkFuel : Nat → Node → List Item → Option (List Item)
  | 0, _, _ => none
  | _ + 1, Node.Leaf _, outfit_items => some outfit_items
  | f + 1, Node.Branch id lo hi, outfit_items =>
    if hi = Node.Leaf false then walkFuel f lo outfit_items
    else walkFuel f hi (outfit_items ++ [id])

/-- `Closet::complete_outfit` (`complete_outfit.rs`): validate the
selections, restrict the root by each selection set to true, walk the
residual, and return the accumulated items sorted.  The outer `Option`
models the possible `.unwrap()` panic inside validation. -/
def Closet.complete_outfit (c : Closet) (selections : List Item) :
    Option (Except OutfitError Outfit) :=
  match validateSelections c selections with
  | none => none
  | some (some e) => some (Except.error e)
  | some none =>
    let root := selections.foldl
      (fun new_root selection => new_root.restrict selection true) c.root
    some (Except.ok ⟨List.insertionSort (· ≤ ·) (walk root selections)⟩)

/-- The work-stack loop of `trees` (`zdd2/forest/trees.rs`): the head of the
list is the top of the Rust `Vec` stack; a branch pushes `(low, path)` then
`(high, path ++ [item])`, the true leaf emits the path, the false leaf
discards it. -/
def treesAux : List (Node × List Item) → List (List Item)
  | [] => []
  | (Node.Leaf false, _) :: rest => treesAux rest
  | (Node.Leaf true, path) :: rest => path :: treesAux rest
  | (Node.Branch id lo hi, path) :: rest =>
    treesAux ((hi, path ++ [id]) :: (lo, path) :: rest)
termination_by q => (q.map (fun x => x.1.size)).sum
decreasing_by
  all_goals simp [Node.size]
  omega

/-- `trees(root)` (`zdd2/forest/trees.rs`): enumerate, for every path from
the root to the `Always` leaf, the branch variables taken on high edges. -/
def trees (root : Node) : List (List Item) :=
  treesAux [(root, [])]

/-- Recursive presentation of the emission of `trees` from node `n` with
accumulated path `p` (high side first, mirroring the stack order). -/
def treesApp : Node → List Item → List (List Item)
  | Node.Leaf false, _ => []
  | Node.Leaf true, p => [p]
  | Node.Branch id lo hi, p => treesApp hi (p ++ [id]) ++ treesApp lo p

/-- The assignments emitted from a node with the empty path. -/
def treesRec : Node → List (List Item)
  | Node.Leaf false => []
  | Node.Leaf true => [[]]
  | Node.Branch id lo hi => (treesRec hi).map (id :: ·) ++ treesRec lo

/-- The family of sets represented by a node under the zero-suppressed
reading (spec §4.D enumeration, §9): `Always` holds exactly the empty set,
`Never` nothing, and a branch unions its low family with its high family
extended by the branch item. -/
def modelsOf : Node → Finset (Finset Item)
  | Node.Leaf false => ∅
  | Node.Leaf true => {∅}
  | Node.Branch id lo hi => modelsOf lo ∪ (modelsOf hi).image (insert id)

/-! ### Basic lemmas about the node kernel -/

theorem Node.eval_branch (i : Item) (lo hi : Node) (a : Item → Bool) :
    (Node.branch i lo hi).eval a = if a i then hi.eval a else lo.eval a := by
  rw [Node.branch]
  split
  · next h => subst h; cases a i <;> simp [Node.eval]
  · rfl

theorem Node.hasVar_mono_left {j i : Item} {lo hi : Node}
    (h : lo.hasVar j = true) : (Node.Branch i lo hi).hasVar j = true := by
  simp [Node.hasVar, h]

theorem Node.hasVar_mono_right {j i : Item} {lo hi : Node}
    (h : hi.hasVar j = true) : (Node.Branch i lo hi).hasVar j = true := by
  simp [Node.hasVar, h]

theorem Node.hasVar_branch {j i : Item} {lo hi : Node}
    (h : (Node.branch i lo hi).hasVar j = true) :
    j = i ∨ lo.hasVar j = true ∨ hi.hasVar j = true := by
  rw [Node.branch] at h
  split at h
  · exact Or.inr (Or.inl h)
  · simpa [Node.hasVar, or_assoc] using h

theorem Node.eval_neg (n : Node) (a : Item → Bool) :
    n.neg.eval a = !(n.eval a) := by
  induction n with
  | Leaf b => rfl
  | Branch i lo hi ihlo ihhi =>
    simp only [Node.neg, Node.eval_branch, Node.eval, ihlo, ihhi]
    cases a i <;> simp

theorem Node.hasVar_neg {j : Item} {n : Node} (h : n.neg.hasVar j = true) :
    n.hasVar j = true := by
  induction n with
  | Leaf b => simpa [Node.neg, Node.hasVar] using h
  | Branch i lo hi ihlo ihhi =>
    rcases Node.hasVar_branch h with h1 | h1 | h1
    · simp [Node.hasVar, h1]
    · simp [Node.hasVar, ihlo h1]
    · simp [Node.hasVar, ihhi h1]

theorem Node.eval_and (a b : Node) (t : Item → Bool) :
    (a.and b).eval t = (a.eval t && b.eval t) := by
  induction a with
  | Leaf v => cases v <;> simp [Node.and, Node.eval]
  | Branch i lo hi ihlo ihhi =>
    simp only [Node.and, Node.eval_branch, Node.eval, ihlo, ihhi]
    cases t i <;> simp

theorem Node.hasVar_and {j : Item} {a b : Node}
    (h : (a.and b).hasVar j = true) : a.hasVar j = true ∨ b.hasVar j = true := by
  induction a with
  | Leaf v => cases v <;> simp [Node.and, Node.hasVar] at h <;> exact Or.inr h
  | Branch i lo hi ihlo ihhi =>
    rcases Node.hasVar_branch h with h1 | h1 | h1
    · exact Or.inl (by simp [Node.hasVar, h1])
    · rcases ihlo h1 with h2 | h2
      · exact Or.inl (Node.hasVar_mono_left h2)
      · exact Or.inr h2
    · rcases ihhi h1 with h2 | h2
      · exact Or.inl (Node.hasVar_mono_right h2)
      · exact Or.inr h2

theorem Node.eval_restrict (n : Node) (i : Item) (v : Bool) (t : Item → Bool) :
    (n.restrict i v).eval t = n.eval (fun j => if j = i then v else t j) := by
  induction n with
  | Leaf b => rfl
  | Branch k lo hi ihlo ihhi =>
    by_cases hk : k = i
    · subst hk
      cases v <;> simp [Node.restrict, Node.eval, ihlo, ihhi]
    · simp only [Node.restrict, if_neg hk, Node.eval_branch, Node.eval]
      rw [ihlo, ihhi]

theorem Node.hasVar_restrict {j i : Item} {v : Bool} {n : Node}
    (h : (n.restrict i v).hasVar j = true) : n.hasVar j = true ∧ j ≠ i := by
  induction n with
  | Leaf b => simp [Node.restrict, Node.hasVar] at h
  | Branch k lo hi ihlo ihhi =>
    by_cases hk : k = i
    · subst hk
      cases v <;> simp only [Node.restrict, if_pos rfl] at h
      · rcases ihlo h with ⟨h1, h2⟩
        exact ⟨Node.hasVar_mono_left h1, h2⟩
      · rcases ihhi h with ⟨h1, h2⟩
        exact ⟨Node.hasVar_mono_right h1, h2⟩
    · simp only [Node.restrict, if_neg hk] at h
      rcases Node.hasVar_branch h with h1 | h1 | h1
      · subst h1
        exact ⟨by simp [Node.hasVar], hk⟩
      · rcases ihlo h1 with ⟨h2, h3⟩
        exact ⟨Node.hasVar_mono_left h2, h3⟩
      · rcases ihhi h1 with ⟨h2, h3⟩
        exact ⟨Node.hasVar_mono_right h2, h3⟩

theorem Node.eval_congr {n : Node} {t t' : Item → Bool}
    (h : ∀ j, n.hasVar j = true → t j = t' j) : n.eval t = n.eval t' := by
  induction n with
  | Leaf b => rfl
  | Branch i lo hi ihlo ihhi =>
    have hi' : t i = t' i := h i (by simp [Node.hasVar])
    simp only [Node.eval, hi']
    rw [ihlo fun j hj => h j (Node.hasVar_mono_left hj),
        ihhi fun j hj => h j (Node.hasVar_mono_right hj)]

theorem Node.eq_leaf_of_no_vars {n : Node} (h : ∀ j, n.hasVar j = false) :
    ∃ b, n = Node.Leaf b := by
  cases n with
  | Leaf b => exact ⟨b, rfl⟩
  | Branch i lo hi => simpa [Node.hasVar] using h i

theorem eval_foldl_restrict (σ : Item → Bool) (l : List Item) (n : Node)
    (t : Item → Bool) :
    (l.foldl (fun m i => m.restrict i (σ i)) n).eval t =
      n.eval (fun j => if j ∈ l then σ j else t j) := by
  induction l generalizing n with
  | nil =>
    simp only [List.foldl_nil]
    refine Node.eval_congr fun j _ => ?_
    simp
  | cons i l ih =>
    simp only [List.foldl_cons]
    rw [ih, Node.eval_restrict]
    refine Node.eval_congr fun j _ => ?_
    by_cases hji : j = i
    · simp [hji]
    · by_cases hjl : j ∈ l <;> simp [hji, hjl]

theorem hasVar_foldl_restrict {σ : Item → Bool} {l : List Item} {n : Node} {j : Item}
    (h : (l.foldl (fun m i => m.restrict i (σ i)) n).hasVar j = true) :
    n.hasVar j = true ∧ j ∉ l := by
  induction l generalizing n with
  | nil => exact ⟨h, by simp⟩
  | cons i l ih =>
    simp only [List.foldl_cons] at h
    rcases ih h with ⟨h1, h2⟩
    rcases Node.hasVar_restrict h1 with ⟨h3, h4⟩
    exact ⟨h3, by simp [h2, h4]⟩

/-! ### Reducedness and repetition-freeness are preserved by the kernel -/

theorem Node.noRedundant_branch {i : Item} {lo hi : Node}
    (hl : lo.noRedundant = true) (hh : hi.noRedundant = true) :
    (Node.branch i lo hi).noRedundant = true := by
  rw [Node.branch]
  split
  · exact hl
  · next h => simp [Node.noRedundant, bne_iff_ne, h, hl, hh]

theorem Node.noRedundant_neg {n : Node} (h : n.noRedundant = true) :
    n.neg.noRedundant = true := by
  induction n with
  | Leaf b => rfl
  | Branch i lo hi ihlo ihhi =>
    simp only [Node.noRedundant, Bool.and_eq_true] at h
    exact Node.noRedundant_branch (ihlo h.1.2) (ihhi h.2)

theorem Node.noRedundant_and {a b : Node} (ha : a.noRedundant = true)
    (hb : b.noRedundant = true) : (a.and b).noRedundant = true := by
  induction a with
  | Leaf v => cases v <;> simp [Node.and, Node.noRedundant, hb]
  | Branch i lo hi ihlo ihhi =>
    simp only [Node.noRedundant, Bool.and_eq_true] at ha
    exact Node.noRedundant_branch (ihlo ha.1.2) (ihhi ha.2)

theorem Node.noRedundant_xor {i : Item} {n : Node} (h : n.noRedundant = true) :
    (Node.xor i n).noRedundant = true :=
  Node.noRedundant_branch h (Node.noRedundant_neg h)

theorem Node.noRedundant_restrict {n : Node} {i : Item} {v : Bool}
    (h : n.noRedundant = true) : (n.restrict i v).noRedundant = true := by
  induction n with
  | Leaf b => exact h
  | Branch k lo hi ihlo ihhi =>
    simp only [Node.noRedundant, Bool.and_eq_true] at h
    by_cases hk : k = i
    · subst hk
      cases v <;> simp only [Node.restrict, if_pos rfl]
      · exact ihlo h.1.2
      · exact ihhi h.2
    · simp only [Node.restrict, if_neg hk]
      exact Node.noRedundant_branch (ihlo h.1.2) (ihhi h.2)

theorem noRedundant_familyNode (items : List Item) :
    (familyNode items).noRedundant = true := by
  rw [familyNode]
  generalize hacc : Node.Leaf false = acc
  have : acc.noRedundant = true := by rw [← hacc]; rfl
  clear hacc
  induction items generalizing acc with
  | nil => exact this
  | cons i l ih => exact ih _ (Node.noRedundant_xor this)

theorem noRedundant_buildRoot (b : ClosetBuilder) :
    b.buildRoot.noRedundant = true := by
  rw [ClosetBuilder.buildRoot]
  generalize hacc : Node.Leaf true = acc
  have hm : acc.noRedundant = true := by rw [← hacc]; rfl
  clear hacc
  induction b.contents generalizing acc with
  | nil => exact hm
  | cons p l ih =>
    exact ih _ (Node.noRedundant_and hm (noRedundant_familyNode p.2))

theorem Node.hasVar_branch_false {j i : Item} {lo hi : Node} (hne : j ≠ i)
    (h1 : lo.hasVar j = false) (h2 : hi.hasVar j = false) :
    (Node.branch i lo hi).hasVar j = false := by
  cases hc : (Node.branch i lo hi).hasVar j
  · rfl
  · rcases Node.hasVar_branch hc with h | h | h
    · exact absurd h hne
    · simp [h] at h1
    · simp [h] at h2

theorem Node.hasVar_neg_false {j : Item} {n : Node} (h : n.hasVar j = false) :
    n.neg.hasVar j = false := by
  cases hc : n.neg.hasVar j
  · rfl
  · simp [Node.hasVar_neg hc] at h

theorem Node.hasVar_and_false {j : Item} {a b : Node} (h1 : a.hasVar j = false)
    (h2 : b.hasVar j = false) : (a.and b).hasVar j = false := by
  cases hc : (a.and b).hasVar j
  · rfl
  · rcases Node.hasVar_and hc with h | h
    · simp [h] at h1
    · simp [h] at h2

theorem Node.hasVar_restrict_false {j i : Item} {v : Bool} {n : Node}
    (h : n.hasVar j = false) : (n.restrict i v).hasVar j = false := by
  cases hc : (n.restrict i v).hasVar j
  · rfl
  · simp [(Node.hasVar_restrict hc).1] at h

theorem Node.noRepeat_branch {i : Item} {lo hi : Node} (h1 : lo.hasVar i = false)
    (h2 : hi.hasVar i = false) (h3 : lo.noRepeat = true) (h4 : hi.noRepeat = true) :
    (Node.branch i lo hi).noRepeat = true := by
  rw [Node.branch]
  split
  · exact h3
  · simp [Node.noRepeat, h1, h2, h3, h4]

theorem Node.noRepeat_neg {n : Node} (h : n.noRepeat = true) :
    n.neg.noRepeat = true := by
  induction n with
  | Leaf b => rfl
  | Branch i lo hi ihlo ihhi =>
    simp only [Node.noRepeat, Bool.and_eq_true, Bool.not_eq_true'] at h
    exact Node.noRepeat_branch (Node.hasVar_neg_false h.1.1.1)
      (Node.hasVar_neg_false h.1.1.2) (ihlo h.1.2) (ihhi h.2)

theorem Node.noRepeat_xor {i : Item} {n : Node} (hv : n.hasVar i = false)
    (h : n.noRepeat = true) : (Node.xor i n).noRepeat = true :=
  Node.noRepeat_branch hv (Node.hasVar_neg_false hv) h (Node.noRepeat_neg h)

theorem Node.noRepeat_and {a b : Node} (ha : a.noRepeat = true)
    (hb : b.noRepeat = true)
    (hdisj : ∀ j, a.hasVar j = true → b.hasVar j = false) :
    (a.and b).noRepeat = true := by
  induction a with
  | Leaf v =>
    cases v
    · rfl
    · exact hb
  | Branch i lo hi ihlo ihhi =>
    simp only [Node.noRepeat, Bool.and_eq_true, Bool.not_eq_true'] at ha
    refine Node.noRepeat_branch ?_ ?_ ?_ ?_
    · exact Node.hasVar_and_false ha.1.1.1 (hdisj i (by simp [Node.hasVar]))
    · exact Node.hasVar_and_false ha.1.1.2 (hdisj i (by simp [Node.hasVar]))
    · exact ihlo ha.1.2 fun j hj => hdisj j (Node.hasVar_mono_left hj)
    · exact ihhi ha.2 fun j hj => hdisj j (Node.hasVar_mono_right hj)

theorem Node.noRepeat_restrict {n : Node} {i : Item} {v : Bool}
    (h : n.noRepeat = true) : (n.restrict i v).noRepeat = true := by
  induction n with
  | Leaf b => exact h
  | Branch k lo hi ihlo ihhi =>
    simp only [Node.noRepeat, Bool.and_eq_true, Bool.not_eq_true'] at h
    by_cases hk : k = i
    · subst hk
      cases v <;> simp only [Node.restrict, if_pos rfl]
      · exact ihlo h.1.2
      · exact ihhi h.2
    · simp only [Node.restrict, if_neg hk]
      exact Node.noRepeat_branch (Node.hasVar_restrict_false h.1.1.1)
        (Node.hasVar_restrict_false h.1.1.2) (ihlo h.1.2) (ihhi h.2)

theorem noRedundant_foldl_restrict (σ : Item → Bool) (l : List Item) (n : Node)
    (h : n.noRedundant = true) :
    (l.foldl (fun m i => m.restrict i (σ i)) n).noRedundant = true := by
  induction l generalizing n with
  | nil => exact h
  | cons i l ih => exact ih _ (Node.noRedundant_restrict h)

theorem noRepeat_foldl_restrict (σ : Item → Bool) (l : List Item) (n : Node)
    (h : n.noRepeat = true) :
    (l.foldl (fun m i => m.restrict i (σ i)) n).noRepeat = true := by
  induction l generalizing n with
  | nil => exact h
  | cons i l ih => exact ih _ (Node.noRepeat_restrict h)

/-! ### Variables and repetition-freeness of the built root -/

theorem familyNode_fold (items : List Item) (acc : Node) (hnd : items.Nodup)
    (hacc : acc.noRepeat = true) (hdisj : ∀ i ∈ items, acc.hasVar i = false) :
    (items.foldl (fun a i => Node.xor i a) acc).noRepeat = true
    ∧ ∀ j, (items.foldl (fun a i => Node.xor i a) acc).hasVar j = true →
        j ∈ items ∨ acc.hasVar j = true := by
  induction items generalizing acc with
  | nil => exact ⟨hacc, fun j h => Or.inr h⟩
  | cons i l ih =>
    simp only [List.foldl_cons]
    have hi : acc.hasVar i = false := hdisj i (by simp)
    have hinl : i ∉ l := (List.nodup_cons.mp hnd).1
    have hstep : ∀ x ∈ l, (Node.xor i acc).hasVar x = false := by
      intro x hx
      have hxi : x ≠ i := fun hcontra => hinl (hcontra ▸ hx)
      exact Node.hasVar_branch_false hxi (hdisj x (by simp [hx]))
        (Node.hasVar_neg_false (hdisj x (by simp [hx])))
    rcases ih (Node.xor i acc) (List.nodup_cons.mp hnd).2
        (Node.noRepeat_xor hi hacc) hstep with ⟨h1, h2⟩
    refine ⟨h1, fun j hj => ?_⟩
    rcases h2 j hj with hl | hx
    · exact Or.inl (by simp [hl])
    · rcases Node.hasVar_branch hx with h3 | h3 | h3
      · exact Or.inl (by simp [h3])
      · exact Or.inr h3
      · exact Or.inr (Node.hasVar_neg h3)

theorem familyNode_noRepeat (items : List Item) (hnd : items.Nodup) :
    (familyNode items).noRepeat = true :=
  (familyNode_fold items (Node.Leaf false) hnd rfl (fun _ _ => rfl)).1

theorem xorFold_vars (items : List Item) (acc : Node) (j : Item)
    (h : ((items.foldl (fun a i => Node.xor i a) acc).hasVar j) = true) :
    j ∈ items ∨ acc.hasVar j = true := by
  induction items generalizing acc with
  | nil => exact Or.inr h
  | cons i l ih =>
    simp only [List.foldl_cons] at h
    rcases ih (Node.xor i acc) h with h1 | h1
    · exact Or.inl (by simp [h1])
    · rcases Node.hasVar_branch h1 with h2 | h2 | h2
      · exact Or.inl (by simp [h2])
      · exact Or.inr h2
      · exact Or.inr (Node.hasVar_neg h2)

theorem familyNode_vars {items : List Item} {j : Item}
    (h : (familyNode items).hasVar j = true) : j ∈ items := by
  rcases xorFold_vars items (Node.Leaf false) j h with h1 | h1
  · exact h1
  · simp [Node.hasVar] at h1

theorem buildRoot_fold (fams : List (List Item)) (acc : Node)
    (hacc : acc.noRepeat = true) (hnd : fams.flatten.Nodup)
    (hdisj : ∀ j, acc.hasVar j = true → j ∉ fams.flatten) :
    ((fams.map familyNode).foldl (fun l n => l.and n) acc).noRepeat = true
    ∧ ∀ j, ((fams.map familyNode).foldl (fun l n => l.and n) acc).hasVar j = true →
        j ∈ fams.flatten ∨ acc.hasVar j = true := by
  induction fams generalizing acc with
  | nil => exact ⟨hacc, fun j h => Or.inr h⟩
  | cons f fs ih =>
    simp only [List.map_cons, List.foldl_cons]
    rw [List.flatten_cons] at hnd hdisj
    have hfnd : f.Nodup := (List.nodup_append.mp hnd).1
    have hfsnd : fs.flatten.Nodup := (List.nodup_append.mp hnd).2.1
    have hfdisj : f.Disjoint fs.flatten := (List.nodup_append.mp hnd).2.2
    have hfam := familyNode_noRepeat f hfnd
    have hacc' : (acc.and (familyNode f)).noRepeat = true := by
      refine Node.noRepeat_and hacc hfam fun j hj => ?_
      cases hc : (familyNode f).hasVar j
      · rfl
      · exact absurd (List.mem_append_left _ (familyNode_vars hc)) (hdisj j hj)
    have hdisj' : ∀ j, (acc.and (familyNode f)).hasVar j = true → j ∉ fs.flatten := by
      intro j hj
      rcases Node.hasVar_and hj with h1 | h1
      · exact fun hc => hdisj j h1 (List.mem_append_right _ hc)
      · exact hfdisj (familyNode_vars h1)
    rcases ih (acc.and (familyNode f)) hacc' hfsnd hdisj' with ⟨h1, h2⟩
    refine ⟨h1, fun j hj => ?_⟩
    rcases h2 j hj with hl | hx
    · exact Or.inl (List.mem_append_right _ hl)
    · rcases Node.hasVar_and hx with h3 | h3
      · exact Or.inr h3
      · exact Or.inl (List.mem_append_left _ (familyNode_vars h3))

theorem buildRoot_noRepeat (b : ClosetBuilder)
    (hnd : ((b.contents.map Prod.snd).flatten).Nodup) :
    b.buildRoot.noRepeat = true := by
  have := buildRoot_fold (b.contents.map Prod.snd) (Node.Leaf true) rfl hnd
    (fun j hj => by simp [Node.hasVar] at hj)
  rw [ClosetBuilder.buildRoot]
  rw [List.map_map] at this
  exact this.1

theorem andFold_vars (fams : List (List Item)) (acc : Node) (j : Item)
    (h : (((fams.map familyNode).foldl (fun l n => l.and n) acc).hasVar j) = true) :
    j ∈ fams.flatten ∨ acc.hasVar j = true := by
  induction fams generalizing acc with
  | nil => exact Or.inr h
  | cons f fs ih =>
    simp only [List.map_cons, List.foldl_cons] at h
    rcases ih (acc.and (familyNode f)) h with h1 | h1
    · exact Or.inl (by rw [List.flatten_cons]; exact List.mem_append_right _ h1)
    · rcases Node.hasVar_and h1 with h2 | h2
      · exact Or.inr h2
      · exact Or.inl (by
          rw [List.flatten_cons]
          exact List.mem_append_left _ (familyNode_vars h2))

theorem buildRoot_vars {b : ClosetBuilder} {j : Item}
    (h : b.buildRoot.hasVar j = true) : j ∈ (b.contents.map Prod.snd).flatten := by
  rw [ClosetBuilder.buildRoot] at h
  have h' : (((b.contents.map Prod.snd).map familyNode).foldl
      (fun l n => l.and n) (Node.Leaf true)).hasVar j = true := by
    rw [List.map_map]
    exact h
  rcases andFold_vars (b.contents.map Prod.snd) (Node.Leaf true) j h' with h1 | h1
  · exact h1
  · simp [Node.hasVar] at h1

/-! ### The completion walk follows a satisfying path -/

theorem walk_prefix (n : Node) (acc : List Item) :
    ∃ added, walk n acc = acc ++ added ∧ ∀ j ∈ added, n.hasVar j = true := by
  induction n generalizing acc with
  | Leaf b => exact ⟨[], by simp [walk], by simp⟩
  | Branch i lo hi ihlo ihhi =>
    rw [walk]
    split
    · rcases ihlo acc with ⟨ad, h1, h2⟩
      exact ⟨ad, h1, fun j hj => Node.hasVar_mono_left (h2 j hj)⟩
    · rcases ihhi (acc ++ [i]) with ⟨ad, h1, h2⟩
      refine ⟨i :: ad, by rw [h1]; simp, fun j hj => ?_⟩
      rcases List.mem_cons.mp hj with hj | hj
      · subst hj; simp [Node.hasVar]
      · exact Node.hasVar_mono_right (h2 j hj)

theorem walk_eval (n : Node) (acc W : List Item) (hW : walk n acc = W)
    (hnr : n.noRepeat = true) (hred : n.noRedundant = true)
    (hne : n ≠ Node.Leaf false)
    (hacc : ∀ j, n.hasVar j = true → j ∉ acc) :
    n.eval (fun j => decide (j ∈ W)) = true := by
  induction n generalizing acc with
  | Leaf b =>
    cases b
    · exact absurd rfl hne
    · rfl
  | Branch i lo hi ihlo ihhi =>
    simp only [Node.noRepeat, Bool.and_eq_true, Bool.not_eq_true'] at hnr
    simp only [Node.noRedundant, Bool.and_eq_true, bne_iff_ne] at hred
    rw [walk] at hW
    simp only [Node.eval]
    split at hW
    · next hhi =>
      have hiW : i ∉ W := by
        rcases walk_prefix lo acc with ⟨ad, h1, h2⟩
        rw [← hW, h1]
        intro hc
        rcases List.mem_append.mp hc with hc | hc
        · exact hacc i (by simp [Node.hasVar]) hc
        · simp [h2 i hc] at hnr
      rw [if_neg (by simpa using hiW)]
      refine ihlo acc hW hnr.1.2 hred.1.2 ?_
        fun j hj => hacc j (Node.hasVar_mono_left hj)
      rw [← hhi]
      exact hred.1.1
    · next hhi =>
      have hiW : i ∈ W := by
        rcases walk_prefix hi (acc ++ [i]) with ⟨ad, h1, h2⟩
        rw [← hW, h1]
        exact List.mem_append_left _ (List.mem_append_right _ (by simp))
      rw [if_pos (by simpa using hiW)]
      refine ihhi (acc ++ [i]) hW hnr.2 hred.2 hhi fun j hj hc => ?_
      rcases List.mem_append.mp hc with hc | hc
      · exact hacc j (Node.hasVar_mono_right hj) hc
      · rw [List.mem_singleton.mp hc] at hj
        simp [hj] at hnr

/-! ### Extraction lemmas for build and complete_outfit -/

theorem build_ok {b : ClosetBuilder} {c : Closet}
    (hb : b.build = some (Except.ok c)) :
    c.item_index = b.item_index ∧ c.root = b.buildRoot := by
  rw [ClosetBuilder.build] at hb
  split at hb
  · exact absurd hb (by simp)
  · exact absurd hb (by simp)
  · simp only [Option.some.injEq, Except.ok.injEq] at hb
    exact ⟨by rw [← hb], by rw [← hb]⟩

theorem complete_outfit_ok {c : Closet} {sel : List Item} {o : Outfit}
    (h : c.complete_outfit sel = some (Except.ok o)) :
    validateSelections c sel = some none
    ∧ o.items = List.insertionSort (· ≤ ·)
        (walk (sel.foldl (fun new_root selection =>
          new_root.restrict selection true) c.root) sel) := by
  rw [Closet.complete_outfit] at h
  split at h
  · exact absurd h (by simp)
  · exact absurd h (by simp)
  · next hval =>
    refine ⟨hval, ?_⟩
    simp only [Option.some.injEq, Except.ok.injEq] at h
    rw [← h]

theorem validate_unknown_none {c : Closet} {sel : List Item}
    (h : validateSelections c sel = some none) :
    find_unknown_items c sel = none := by
  rw [validateSelections] at h
  split at h
  · exact absurd h (by simp)
  · next heq => exact heq

theorem validate_conflict_none {c : Closet} {sel : List Item}
    (h : validateSelections c sel = some none) :
    find_conflicting_items c sel = none := by
  rw [validateSelections] at h
  split at h
  · exact absurd h (by simp)
  · split at h
    · exact absurd h (by simp)
    · exact absurd h (by simp)
    · split at h
      · exact absurd h (by simp)
      · next heq => exact heq

theorem residual_ne_never {c : Closet} {sel : List Item}
    (h : find_conflicting_items c sel = none) :
    sel.foldl (fun new_root selection => new_root.restrict selection true)
      c.root ≠ Node.Leaf false := by
  intro hc
  rw [find_conflicting_items] at h
  rw [if_pos hc] at h
  exact absurd h (by simp)

theorem unknown_none_known {c : Closet} {sel : List Item}
    (h : find_unknown_items c sel = none) :
    ∀ s ∈ sel, (c.get_family s).isSome = true := by
  rw [find_unknown_items] at h
  split at h
  · next hfil =>
    intro s hs
    have hns := List.filter_eq_nil.mp hfil s hs
    cases hcs : c.get_family s
    · rw [hcs] at hns
      simp at hns
    · rfl
  · exact absurd h (by simp)

theorem btreeGet_mem_keys {α : Type} {k : Nat} {v : α} {m : List (Nat × α)}
    (h : btreeGet k m = some v) : k ∈ m.map Prod.fst := by
  induction m with
  | nil => simp [btreeGet] at h
  | cons p rest ih =>
    rw [btreeGet] at h
    split at h
    · next hk => simp [hk]
    · simp [ih h]

/-- C2: for every closet built from declarations with pairwise-distinct items
(spec §4.C takes a set of `add_item` declarations) whose contents are
indexed, and every selection list for which `complete_outfit` returns a
successful outfit `O`, restricting the closet's root by every item of `O`
set to true and every other indexed item set to false evaluates to the
`Always` leaf — including for closets containing a family with three or more
items. -/
theorem complete_outfit_satisfies_root (b : ClosetBuilder)
    (hnd : ((b.contents.map Prod.snd).flatten).Nodup)
    (hidx : ∀ i ∈ (b.contents.map Prod.snd).flatten, i ∈ b.item_index.map Prod.fst)
    (c : Closet) (hb : b.build = some (Except.ok c))
    (sel : List Item) (o : Outfit)
    (ho : c.complete_outfit sel = some (Except.ok o)) :
    (b.item_index.map Prod.fst).foldl
      (fun n i => n.restrict i (decide (i ∈ o.items))) c.root = Node.Leaf true := by
  obtain ⟨hci, hcr⟩ := build_ok hb
  obtain ⟨hval, hoi⟩ := complete_outfit_ok ho
  have hmemW : ∀ j : Item, j ∈ o.items ↔
      j ∈ walk (sel.foldl (fun new_root selection =>
        new_root.restrict selection true) c.root) sel := by
    intro j
    rw [hoi]
    exact (List.perm_insertionSort _ _).mem_iff
  have hrednr : (sel.foldl (fun new_root selection =>
      new_root.restrict selection true) c.root).noRedundant = true := by
    have := noRedundant_foldl_restrict (fun _ => true) sel c.root
      (by rw [hcr]; exact noRedundant_buildRoot b)
    exact this
  have hnrres : (sel.foldl (fun new_root selection =>
      new_root.restrict selection true) c.root).noRepeat = true := by
    have := noRepeat_foldl_restrict (fun _ => true) sel c.root
      (by rw [hcr]; exact buildRoot_noRepeat b hnd)
    exact this
  have hne := residual_ne_never (validate_conflict_none hval)
  have hsel : ∀ j, (sel.foldl (fun new_root selection =>
      new_root.restrict selection true) c.root).hasVar j = true → j ∉ sel := by
    intro j hj
    exact (@hasVar_foldl_restrict (fun _ => true) sel c.root j hj).2
  have heval := walk_eval
    (sel.foldl (fun new_root selection => new_root.restrict selection true) c.root)
    sel _ rfl hnrres hrednr hne hsel
  have hevalσ : (sel.foldl (fun new_root selection =>
      new_root.restrict selection true) c.root).eval
        (fun j => decide (j ∈ o.items)) = true := by
    have hfun : (fun j : Item => decide (j ∈ o.items)) =
        (fun j => decide (j ∈ walk (sel.foldl (fun new_root selection =>
          new_root.restrict selection true) c.root) sel)) := by
      funext j
      by_cases hj : j ∈ o.items
      · simp [hj, (hmemW j).mp hj]
      · have hjW : j ∉ walk (sel.foldl (fun new_root selection =>
            new_root.restrict selection true) c.root) sel :=
          fun hc => hj ((hmemW j).mpr hc)
        simp [hj, hjW]
    rw [hfun]
    exact heval
  have hselW : ∀ j ∈ sel, j ∈ o.items := by
    intro j hj
    rcases walk_prefix (sel.foldl (fun new_root selection =>
      new_root.restrict selection true) c.root) sel with ⟨ad, h1, _⟩
    exact (hmemW j).mpr (h1 ▸ List.mem_append_left _ hj)
  have hrooteval : c.root.eval (fun j => decide (j ∈ o.items)) = true := by
    have h1 := eval_foldl_restrict (fun _ => true) sel c.root
      (fun j => decide (j ∈ o.items))
    rw [hevalσ] at h1
    have hpatch : c.root.eval
        (fun j => if j ∈ sel then true else decide (j ∈ o.items))
        = c.root.eval (fun j => decide (j ∈ o.items)) := by
      refine Node.eval_congr fun j _ => ?_
      by_cases hj : j ∈ sel
      · simp [hj, hselW j hj]
      · simp [hj]
    rw [← hpatch]
    exact h1.symm
  have hnovar : ∀ j, ((b.item_index.map Prod.fst).foldl
      (fun n i => n.restrict i (decide (i ∈ o.items))) c.root).hasVar j = false := by
    intro j
    cases hc : ((b.item_index.map Prod.fst).foldl
      (fun n i => n.restrict i (decide (i ∈ o.items))) c.root).hasVar j
    · rfl
    · exfalso
      obtain ⟨h1, h2⟩ := @hasVar_foldl_restrict (fun i => decide (i ∈ o.items))
        (b.item_index.map Prod.fst) c.root j hc
      rw [hcr] at h1
      exact h2 (hidx j (buildRoot_vars h1))
  obtain ⟨bb, hbb⟩ := Node.eq_leaf_of_no_vars hnovar
  have hFeval := eval_foldl_restrict (fun i => decide (i ∈ o.items))
    (b.item_index.map Prod.fst) c.root (fun i => decide (i ∈ o.items))
  rw [hbb] at hFeval
  have hfix : (fun j : Item => if j ∈ b.item_index.map Prod.fst
      then decide (j ∈ o.items) else decide (j ∈ o.items)) =
      (fun j : Item => decide (j ∈ o.items)) := by
    funext j
    by_cases hj : j ∈ b.item_index.map Prod.fst <;> simp [hj]
  rw [hfix, hrooteval] at hFeval
  rw [hbb]
  have : bb = true := hFeval
  rw [this]

/-- The builder of claim C1's failing input: shirts (0) holds blue (10),
pants (1) holds jeans (20), and blue excludes jeans. -/
def builderC1 : ClosetBuilder :=
  ((ClosetBuilder.new.add_item 0 10).add_item 1 20).add_exclusion_rule 10 20

/-- The closet that `builderC1.build` returns. -/
def closetC1 : Closet :=
  ⟨[(10, 0), (20, 1)],
    Node.Branch 10 (Node.Leaf false) (Node.Branch 20 (Node.Leaf false) (Node.Leaf true))⟩

/-- C1: the claim states that the root is the conjunction of the family
constraints, the exclusion constraints `¬(a ∧ b)` and the inclusion
constraints, with the legal outfits as its satisfying assignments.  The code
contradicts this: `build` combines only the family xor-nodes, so for the
closet with exclusion pair `(blue, jeans)` the assignment selecting both
blue (10) and jeans (20) still satisfies the root (restricting by both set
to true reaches `Always`), although it is not a legal outfit. -/
theorem build_root_ignores_exclusions :
    builderC1.build = some (Except.ok closetC1)
    ∧ (closetC1.root.restrict 10 true).restrict 20 true = Node.Leaf true
    ∧ closetC1.root.eval (fun _ => true) = true :=
  ⟨by rfl, rfl, rfl⟩

/-- The builder of claim C2's witness: one family (0) with the three items
1, 2, 3. -/
def builderC2 : ClosetBuilder :=
  ((ClosetBuilder.new.add_item 0 1).add_item 0 2).add_item 0 3

/-- The closet that `builderC2.build` returns. -/
def closetC2 : Closet :=
  ⟨[(1, 0), (2, 0), (3, 0)],
    Node.Branch 3
      (Node.Branch 2
        (Node.Branch 1 (Node.Leaf false) (Node.Leaf true))
        (Node.Branch 1 (Node.Leaf true) (Node.Leaf false)))
      (Node.Branch 2
        (Node.Branch 1 (Node.Leaf true) (Node.Leaf false))
        (Node.Branch 1 (Node.Leaf false) (Node.Leaf true)))⟩

/-- Witness for C2 on a closet whose single family has three items: the
completion of the empty selection returns the outfit `[1, 2, 3]` and
restricting the root by those items set to true (all indexed items are in
the outfit) evaluates to `Always`. -/
theorem complete_outfit_satisfies_root_witness :
    (((builderC2.contents.map Prod.snd).flatten.Nodup
      ∧ (∀ i ∈ (builderC2.contents.map Prod.snd).flatten,
          i ∈ builderC2.item_index.map Prod.fst))
      ∧ builderC2.build = some (Except.ok closetC2)
      ∧ closetC2.complete_outfit [] = some (Except.ok ⟨[1, 2, 3]⟩))
    ∧ (builderC2.item_index.map Prod.fst).foldl
        (fun n i => n.restrict i (decide (i ∈ (Outfit.mk [1, 2, 3]).items)))
        closetC2.root = Node.Leaf true :=
  ⟨⟨⟨by decide, by decide⟩, by rfl, by rfl⟩,
    complete_outfit_satisfies_root builderC2 (by decide) (by decide) closetC2 (by rfl)
      [] ⟨[1, 2, 3]⟩ (by rfl)⟩

/-- C7: `complete_outfit` is deterministic — two calls with the same closet
and the same selections yield the same result.  In this embedding the
operation is a pure function (the Rust path uses only deterministic
containers: `BTreeMap` grouping and a stable sort), so determinism is
function congruence. -/
theorem complete_outfit_deterministic (c1 c2 : Closet) (s1 s2 : List Item)
    (hc : c1 = c2) (hs : s1 = s2) :
    c1.complete_outfit s1 = c2.complete_outfit s2 := by
  rw [hc, hs]

/-- Witness for C7 at a concrete closet and selection. -/
theorem complete_outfit_deterministic_witness :
    (Closet.mk [(1, 0)] (Node.Branch 1 (Node.Leaf false) (Node.Leaf true))).complete_outfit [1]
      = (Closet.mk [(1, 0)] (Node.Branch 1 (Node.Leaf false) (Node.Leaf true))).complete_outfit [1] :=
  complete_outfit_deterministic _ _ _ _ rfl rfl

/-- C8: if the residual node satisfies the reducedness invariant (no branch
with equal children, no branch with both children the false leaf) and is not
the `Never` leaf, the completion walk can only terminate at the `Always`
leaf, so the `Ok` returned at an arbitrary leaf never comes from the false
leaf. -/
theorem walk_reaches_always (n : Node) (h1 : n.reducedInv = true)
    (h2 : n ≠ Node.Leaf false) : walkEnd n = Node.Leaf true := by
  induction n with
  | Leaf b =>
    cases b
    · exact absurd rfl h2
    · rfl
  | Branch i lo hi ihlo ihhi =>
    simp only [Node.reducedInv, Bool.and_eq_true, bne_iff_ne] at h1
    rw [walkEnd]
    split
    · next hhi =>
      refine ihlo h1.1.2 ?_
      rw [← hhi]
      exact h1.1.1.1
    · next hhi => exact ihhi h1.2 hhi

/-- Witness for C8 at a concrete reduced node. -/
theorem walk_reaches_always_witness :
    ((Node.Branch 1 (Node.Leaf false) (Node.Leaf true)).reducedInv = true
      ∧ Node.Branch 1 (Node.Leaf false) (Node.Leaf true) ≠ Node.Leaf false)
    ∧ walkEnd (Node.Branch 1 (Node.Leaf false) (Node.Leaf true)) = Node.Leaf true :=
  ⟨⟨by decide, by decide⟩, walk_reaches_always _ (by decide) (by decide)⟩

/-- C10: the completion walk terminates for every finite node — with fuel
exceeding the longest root-to-leaf path, the fuel-counted loop reaches a
leaf and returns exactly the accumulated items of `walk`. -/
theorem walk_fuel_bounded (n : Node) (acc : List Item) (f : Nat)
    (h : n.height < f) : walkFuel f n acc = some (walk n acc) := by
  induction n generalizing f acc with
  | Leaf b =>
    cases f
    · exact absurd h (by simp)
    · rfl
  | Branch i lo hi ihlo ihhi =>
    cases f with
    | zero => exact absurd h (by simp)
    | succ f =>
      rw [Node.height] at h
      have hlo := Nat.le_max_left lo.height hi.height
      have hhi := Nat.le_max_right lo.height hi.height
      rw [walkFuel, walk]
      split
      · exact ihlo _ _ (by omega)
      · exact ihhi _ _ (by omega)

/-- Witness for C10 at a concrete node: height 1, fuel 3. -/
theorem walk_fuel_bounded_witness :
    (Node.Branch 1 (Node.Leaf false) (Node.Leaf true)).height < 3
    ∧ walkFuel 3 (Node.Branch 1 (Node.Leaf false) (Node.Leaf true)) [] =
        some (walk (Node.Branch 1 (Node.Leaf false) (Node.Leaf true)) []) :=
  ⟨by decide, walk_fuel_bounded _ [] 3 (by decide)⟩

theorem mapOpt_isSome {α β : Type} {f : α → Option β} {l : List α}
    (h : ∀ a ∈ l, (f a).isSome = true) : ∃ bs, mapOpt f l = some bs := by
  induction l with
  | nil => exact ⟨[], rfl⟩
  | cons a l ih =>
    obtain ⟨bs, hbs⟩ := ih fun x hx => h x (by simp [hx])
    have ha := h a (by simp)
    cases hfa : f a with
    | none =>
      rw [hfa] at ha
      simp at ha
    | some bv => exact ⟨bv :: bs, by simp [mapOpt, hfa, hbs]⟩

theorem find_duplicate_items_total (c : Closet) (sel : List Item)
    (h : ∀ s ∈ sel, (c.get_family s).isSome = true) :
    (find_duplicate_items c sel).isSome = true := by
  have hall : ∀ a ∈ sel,
      ((fun item => (c.get_family item).map (fun f => (f, item))) a).isSome = true := by
    intro a ha
    cases hga : c.get_family a
    · have := h a ha
      rw [hga] at this
      simp at this
    · simp [hga]
  obtain ⟨pairs, hp⟩ := mapOpt_isSome hall
  rw [find_duplicate_items, hp]
  rfl

/-- C9: once the `UnknownItems` check has passed, every selection is present
in the closet's item index, so the `.unwrap()` of the looked-up family inside
`find_duplicate_items` (modelled by the outer `none`) can never panic. -/
theorem unknown_check_guards_unwrap (c : Closet) (sel : List Item)
    (h : find_unknown_items c sel = none) :
    find_duplicate_items c sel ≠ none :=
  Option.ne_none_iff_isSome.mpr
    (find_duplicate_items_total c sel (unknown_none_known h))

/-- Witness for C9 at a concrete closet and selection. -/
theorem unknown_check_guards_unwrap_witness :
    find_unknown_items
      (Closet.mk [(1, 0)] (Node.Branch 1 (Node.Leaf false) (Node.Leaf true))) [1] = none
    ∧ find_duplicate_items
      (Closet.mk [(1, 0)] (Node.Branch 1 (Node.Leaf false) (Node.Leaf true))) [1] ≠ none :=
  ⟨by rfl, unknown_check_guards_unwrap _ _ (by rfl)⟩

/-- C4: on success the returned outfit is the accumulated item list of the
completion walk started from the residual with the selections as initial
accumulator, sorted by the item order; at every branch the walk descends
into `low` without adding the item when `high` is the false leaf, otherwise
adds the item and descends into `high`; at a leaf it stops. -/
theorem complete_outfit_walk_spec (c : Closet) (sel : List Item) (o : Outfit)
    (h : c.complete_outfit sel = some (Except.ok o)) :
    o.items = List.insertionSort (· ≤ ·)
        (walk (sel.foldl (fun new_root selection =>
          new_root.restrict selection true) c.root) sel)
    ∧ List.Sorted (· ≤ ·) o.items
    ∧ o.items.Perm (walk (sel.foldl (fun new_root selection =>
        new_root.restrict selection true) c.root) sel)
    ∧ (∀ i lo hi acc, hi = Node.Leaf false →
        walk (Node.Branch i lo hi) acc = walk lo acc)
    ∧ (∀ i lo hi acc, hi ≠ Node.Leaf false →
        walk (Node.Branch i lo hi) acc = walk hi (acc ++ [i]))
    ∧ (∀ (bv : Bool) acc, walk (Node.Leaf bv) acc = acc) := by
  obtain ⟨-, hoi⟩ := complete_outfit_ok h
  refine ⟨hoi, ?_, ?_, ?_, ?_, ?_⟩
  · rw [hoi]
    exact List.sorted_insertionSort _ _
  · rw [hoi]
    exact List.perm_insertionSort _ _
  · intro i lo hi acc hf
    rw [walk, if_pos hf]
  · intro i lo hi acc hf
    rw [walk, if_neg hf]
  · intro bv acc
    rfl

/-- Witness for C4 at a concrete closet: the successful completion of the
empty selection list returns the sorted walk result. -/
theorem complete_outfit_walk_spec_witness :
    closetC1.complete_outfit [] = some (Except.ok ⟨[10, 20]⟩)
    ∧ (Outfit.mk [10, 20]).items = List.insertionSort (· ≤ ·)
        (walk (List.foldl (fun new_root selection =>
          new_root.restrict selection true) closetC1.root []) [])
    ∧ List.Sorted (· ≤ ·) (Outfit.mk [10, 20]).items :=
  ⟨by rfl,
    (complete_outfit_walk_spec closetC1 [] ⟨[10, 20]⟩ (by rfl)).1,
    (complete_outfit_walk_spec closetC1 [] ⟨[10, 20]⟩ (by rfl)).2.1⟩

/-! ### Grouping selections by family (`find_duplicate_items`) -/

/-- Keys of the association list are strictly sorted (the `BTreeMap`
invariant maintained by `btreePush`). -/
def keysSorted : List (Nat × List Item) → Prop
  | [] => True
  | p :: rest => (∀ q ∈ rest, p.1 < q.1) ∧ keysSorted rest

theorem btreeGet_eq_none_of_all_gt {k : Nat} {m : List (Nat × List Item)}
    (h : ∀ q ∈ m, k < q.1) : btreeGet k m = none := by
  induction m with
  | nil => rfl
  | cons p rest ih =>
    rw [btreeGet]
    rw [if_neg (Nat.ne_of_lt (h p (by simp)))]
    exact ih fun q hq => h q (by simp [hq])

theorem btreePush_mem {k : Nat} {v : Item} {m : List (Nat × List Item)}
    {q : Nat × List Item} (h : q ∈ btreePush k v m) : q.1 = k ∨ q ∈ m := by
  induction m with
  | nil =>
    rw [btreePush] at h
    rcases List.mem_singleton.mp h with h
    simp [h]
  | cons p rest ih =>
    obtain ⟨k', vs⟩ := p
    rw [btreePush] at h
    split at h
    · next hk =>
      rcases List.mem_cons.mp h with h1 | h1
      · exact Or.inl (by simp [h1, hk])
      · exact Or.inr (by simp [h1])
    · split at h
      · rcases List.mem_cons.mp h with h1 | h1
        · exact Or.inl (by simp [h1])
        · exact Or.inr h1
      · rcases List.mem_cons.mp h with h1 | h1
        · exact Or.inr (by simp [h1])
        · rcases ih h1 with h2 | h2
          · exact Or.inl h2
          · exact Or.inr (by simp [h2])

theorem btreePush_sorted {k : Nat} {v : Item} {m : List (Nat × List Item)}
    (h : keysSorted m) : keysSorted (btreePush k v m) := by
  induction m with
  | nil => exact ⟨by simp, trivial⟩
  | cons p rest ih =>
    obtain ⟨k', vs⟩ := p
    rw [btreePush]
    split
    · next hk => exact h
    · split
      · next hlt =>
        refine ⟨?_, h⟩
        intro q hq
        rcases List.mem_cons.mp hq with h1 | h1
        · rw [h1]
          exact hlt
        · exact Nat.lt_trans hlt (h.1 q h1)
      · next hlt =>
        next hk =>
        have hgt : k' < k := by omega
        refine ⟨?_, ih h.2⟩
        intro q hq
        rcases btreePush_mem hq with h1 | h1
        · rw [h1]
          exact hgt
        · exact h.1 q h1

theorem btreePush_get_same {k : Nat} {v : Item} {m : List (Nat × List Item)}
    (h : keysSorted m) :
    btreeGet k (btreePush k v m) = some ((btreeGet k m).getD [] ++ [v]) := by
  induction m with
  | nil => simp [btreePush, btreeGet]
  | cons p rest ih =>
    obtain ⟨k', vs⟩ := p
    rw [btreePush]
    by_cases hk : k = k'
    · rw [if_pos hk]
      simp [btreeGet, hk]
    · rw [if_neg hk]
      by_cases hlt : k < k'
      · rw [if_pos hlt]
        have hrest : btreeGet k rest = none :=
          btreeGet_eq_none_of_all_gt fun q hq => Nat.lt_trans hlt (h.1 q hq)
        simp [btreeGet, hk, hrest]
      · rw [if_neg hlt]
        rw [btreeGet, if_neg hk, btreeGet, if_neg hk]
        exact ih h.2

theorem btreePush_get_other {k : Nat} {v : Item} {m : List (Nat × List Item)}
    {k2 : Nat} (hne : k2 ≠ k) :
    btreeGet k2 (btreePush k v m) = btreeGet k2 m := by
  induction m with
  | nil => simp [btreePush, btreeGet, hne]
  | cons p rest ih =>
    obtain ⟨k', vs⟩ := p
    rw [btreePush]
    by_cases hk : k = k'
    · rw [if_pos hk]
      rw [btreeGet, btreeGet]
      rw [← hk]
      rw [if_neg hne, if_neg hne]
    · rw [if_neg hk]
      by_cases hlt : k < k'
      · rw [if_pos hlt]
        rw [btreeGet, if_neg hne]
      · rw [if_neg hlt]
        rw [btreeGet, btreeGet]
        split
        · rfl
        · exact ih

theorem btreeGet_mem {k : Nat} {vs : List Item} {m : List (Nat × List Item)}
    (h : btreeGet k m = some vs) : (k, vs) ∈ m := by
  induction m with
  | nil => simp [btreeGet] at h
  | cons p rest ih =>
    rw [btreeGet] at h
    split at h
    · next hk =>
      simp only [Option.some.injEq] at h
      exact List.mem_cons.mpr (Or.inl (by rw [hk, ← h]))
    · exact List.mem_cons.mpr (Or.inr (ih h))

theorem mem_btreeGet_of_sorted {m : List (Nat × List Item)} {p : Nat × List Item}
    (hs : keysSorted m) (h : p ∈ m) : btreeGet p.1 m = some p.2 := by
  induction m with
  | nil => simp at h
  | cons q rest ih =>
    rcases List.mem_cons.mp h with h1 | h1
    · rw [h1, btreeGet, if_pos rfl]
    · rw [btreeGet]
      rw [if_neg (Nat.ne_of_gt (hs.1 p h1))]
      exact ih hs.2 h1

theorem groupFold_sorted (pairs : List (Family × Item)) :
    ∀ m : List (Nat × List Item), keysSorted m →
      keysSorted (pairs.foldl (fun m q => btreePush q.1 q.2 m) m) := by
  induction pairs with
  | nil => exact fun m hm => hm
  | cons q rest ih => exact fun m hm => ih _ (btreePush_sorted hm)

theorem groupFold_get (pairs : List (Family × Item)) :
    ∀ (m : List (Nat × List Item)), keysSorted m → ∀ f : Family,
    btreeGet f (pairs.foldl (fun m q => btreePush q.1 q.2 m) m) =
      (match btreeGet f m, (pairs.filter (fun q => q.1 = f)).map Prod.snd with
        | none, [] => none
        | none, l => some l
        | some vs, l => some (vs ++ l)) := by
  induction pairs with
  | nil =>
    intro m hm f
    cases hbm : btreeGet f m <;> simp [hbm]
  | cons q rest ih =>
    intro m hm f
    simp only [List.foldl_cons]
    rw [ih _ (btreePush_sorted hm) f]
    by_cases hq : q.1 = f
    · rw [← hq, btreePush_get_same hm, hq]
      have : (List.filter (fun q => decide (q.1 = f)) (q :: rest)).map Prod.snd
          = q.2 :: (List.filter (fun q => decide (q.1 = f)) rest).map Prod.snd := by
        simp [List.filter_cons, hq]
      rw [this]
      cases btreeGet f m <;> simp
  
    · rw [btreePush_get_other (fun hc => hq hc.symm)]
      have : (List.filter (fun q => decide (q.1 = f)) (q :: rest)).map Prod.snd
          = (List.filter (fun q => decide (q.1 = f)) rest).map Prod.snd := by
        simp [List.filter_cons, hq]
      rw [this]

theorem mapOpt_pairs {c : Closet} {sel : List Item} {pairs : List (Family × Item)}
    (hp : mapOpt (fun item => (c.get_family item).map (fun f => (f, item))) sel
      = some pairs) :
    pairs.map Prod.snd = sel ∧ ∀ p ∈ pairs, c.get_family p.2 = some p.1 := by
  induction sel generalizing pairs with
  | nil =>
    simp only [mapOpt, Option.some.injEq] at hp
    rw [← hp]
    exact ⟨rfl, by simp⟩
  | cons a l ih =>
    rw [mapOpt] at hp
    cases hga : c.get_family a with
    | none =>
      rw [hga] at hp
      simp at hp
    | some fam =>
      rw [hga] at hp
      simp only [Option.map_some'] at hp
      cases hml : mapOpt (fun item => (c.get_family item).map (fun f => (f, item))) l with
      | none =>
        rw [hml] at hp
        simp at hp
      | some bs =>
        rw [hml] at hp
        simp only [Option.map_some', Option.some.injEq] at hp
        obtain ⟨h1, h2⟩ := ih hml
        rw [← hp]
        constructor
        · simp [h1]
        · intro p hpp
          rcases List.mem_cons.mp hpp with h3 | h3
          · rw [h3]
            exact hga
          · exact h2 p h3

/-- The selections that belong to family `f` (the value that
`find_duplicate_items` associates with a duplicated family). -/
def famSelections (c : Closet) (sel : List Item) (f : Family) : List Item :=
  sel.filter (fun s => c.get_family s = some f)

theorem pairs_filter {c : Closet} {pairs : List (Family × Item)} (f : Family)
    (hfam : ∀ p ∈ pairs, c.get_family p.2 = some p.1) :
    (pairs.filter (fun q => q.1 = f)).map Prod.snd
      = (pairs.map Prod.snd).filter (fun s => c.get_family s = some f) := by
  induction pairs with
  | nil => rfl
  | cons q rest ih =>
    have hq := hfam q (by simp)
    have ihr := ih fun p hp => hfam p (by simp [hp])
    by_cases hqf : q.1 = f
    · rw [hqf] at hq
      simp [List.filter_cons, hqf, hq, ihr]
    · have hne : ¬c.get_family q.2 = some f := by
        rw [hq]
        simp [hqf]
      simp [List.filter_cons, hqf, hne, ihr]

theorem find_duplicate_spec (c : Closet) (sel : List Item)
    (hk : ∀ s ∈ sel, (c.get_family s).isSome = true) :
    (find_duplicate_items c sel = some none ↔
      ∀ f, (famSelections c sel f).length ≤ 1)
    ∧ ∀ l, find_duplicate_items c sel = some (some l) →
        l ≠ []
        ∧ (∀ p ∈ l, 1 < p.2.length ∧ p.2 = famSelections c sel p.1)
        ∧ ∀ f, 1 < (famSelections c sel f).length → ∃ vs, (f, vs) ∈ l := by
  have hall : ∀ a ∈ sel,
      ((fun item => (c.get_family item).map (fun f => (f, item))) a).isSome = true := by
    intro a ha
    cases hga : c.get_family a
    · have := hk a ha
      rw [hga] at this
      simp at this
    · simp [hga]
  obtain ⟨pairs, hp⟩ := mapOpt_isSome hall
  obtain ⟨hsel, hfam⟩ := mapOpt_pairs hp
  have hsorted := groupFold_sorted pairs [] trivial
  have hget : ∀ f, btreeGet f (pairs.foldl (fun m q => btreePush q.1 q.2 m) []) =
      if (famSelections c sel f) = [] then none else some (famSelections c sel f) := by
    intro f
    rw [groupFold_get pairs [] trivial f]
    have : (pairs.filter (fun q => q.1 = f)).map Prod.snd = famSelections c sel f := by
      rw [pairs_filter f hfam, hsel]
      rfl
    rw [btreeGet]
    rw [this]
    cases hfs : famSelections c sel f <;> simp
  have hmemg : ∀ p ∈ pairs.foldl (fun m q => btreePush q.1 q.2 m) [],
      p.2 = famSelections c sel p.1 ∧ p.2 ≠ [] := by
    intro p hpg
    have hl := mem_btreeGet_of_sorted hsorted hpg
    rw [hget p.1] at hl
    split at hl
    · exact absurd hl (by simp)
    · next hne =>
      simp only [Option.some.injEq] at hl
      exact ⟨hl.symm, fun h0 => hne (hl.trans h0)⟩
  have hgetmem : ∀ f, famSelections c sel f ≠ [] →
      (f, famSelections c sel f) ∈ pairs.foldl (fun m q => btreePush q.1 q.2 m) [] := by
    intro f hne
    refine btreeGet_mem ?_
    rw [hget f, if_neg hne]
  rw [find_duplicate_items, hp]
  simp only [Option.some.injEq]
  constructor
  · constructor
    · intro hnone f
      by_contra hc
      push_neg at hc
      have hne : famSelections c sel f ≠ [] := by
        intro h0
        rw [h0] at hc
        simp at hc
      have hmem := hgetmem f hne
      have hfil : (f, famSelections c sel f) ∈
          (pairs.foldl (fun m q => btreePush q.1 q.2 m) []).filter
            (fun p => 1 < p.2.length) := by
        refine List.mem_filter.mpr ⟨hmem, by simpa using hc⟩
      split at hnone
      · next hemp =>
        rw [hemp] at hfil
        simp at hfil
      · exact absurd hnone (by simp)
    · intro hle
      have hemp : (pairs.foldl (fun m q => btreePush q.1 q.2 m) []).filter
          (fun p => 1 < p.2.length) = [] := by
        rw [List.eq_nil_iff_forall_not_mem]
        intro p hpf
        obtain ⟨hpg, hplen⟩ := List.mem_filter.mp hpf
        obtain ⟨hval, -⟩ := hmemg p hpg
        have := hle p.1
        rw [← hval] at this
        simp at hplen
        omega
      rw [if_pos hemp]
  · intro l hl
    split at hl
    · exact absurd hl (by simp)
    · next hemp =>
      simp only [Option.some.injEq] at hl
      rw [← hl]
      refine ⟨hemp, ?_, ?_⟩
      · intro p hpf
        obtain ⟨hpg, hplen⟩ := List.mem_filter.mp hpf
        exact ⟨by simpa using hplen, (hmemg p hpg).1⟩
      · intro f hflen
        have hne : famSelections c sel f ≠ [] := by
          intro h0
          rw [h0] at hflen
          simp at hflen
        refine ⟨famSelections c sel f, List.mem_filter.mpr ⟨hgetmem f hne, ?_⟩⟩
        simpa using hflen

theorem find_unknown_some {c : Closet} {sel : List Item}
    (h : ∃ s ∈ sel, c.get_family s = none) :
    find_unknown_items c sel
      = some (sel.filter (fun item => (c.get_family item).isNone)) := by
  rw [find_unknown_items]
  obtain ⟨s, hs, hgs⟩ := h
  have hmem : s ∈ sel.filter (fun item => (c.get_family item).isNone) :=
    List.mem_filter.mpr ⟨hs, by simp [hgs]⟩
  rw [if_neg (List.ne_nil_of_mem hmem)]

theorem find_unknown_none {c : Closet} {sel : List Item}
    (h : ∀ s ∈ sel, (c.get_family s).isSome = true) :
    find_unknown_items c sel = none := by
  rw [find_unknown_items]
  rw [if_pos]
  refine List.filter_eq_nil.mpr fun a ha => ?_
  have := h a ha
  cases hga : c.get_family a
  · rw [hga] at this
    simp at this
  · simp [hga]

/-- C3: `complete_outfit` validates fail-fast in a fixed order: first
`UnknownItems` listing every selection absent from the index; otherwise
`MultipleItemsPerFamily` mapping each family with two or more selections to
its selected items; otherwise `IncompatibleSelections` (the source's name
for the spec's `ConflictingItems`) carrying the sorted selections exactly
when folding `restrict(·, selection, true)` over the selections yields the
`Never` leaf; completion proceeds only when all three checks pass. -/
theorem complete_outfit_validation_order (c : Closet) (sel : List Item) :
    ((∃ s ∈ sel, c.get_family s = none) →
      c.complete_outfit sel = some (Except.error (OutfitError.UnknownItems
        (sel.filter (fun item => (c.get_family item).isNone)))))
    ∧ ((∀ s ∈ sel, (c.get_family s).isSome = true) →
        ((∃ f, 1 < (famSelections c sel f).length) →
          ∃ d, c.complete_outfit sel
              = some (Except.error (OutfitError.MultipleItemsPerFamily d))
            ∧ d ≠ []
            ∧ (∀ p ∈ d, 1 < p.2.length ∧ p.2 = famSelections c sel p.1)
            ∧ (∀ f, 1 < (famSelections c sel f).length → ∃ vs, (f, vs) ∈ d))
        ∧ ((∀ f, (famSelections c sel f).length ≤ 1) →
            ((sel.foldl (fun new_root selection =>
                new_root.restrict selection true) c.root = Node.Leaf false
              ↔ c.complete_outfit sel = some (Except.error
                  (OutfitError.IncompatibleSelections
                    (List.insertionSort (· ≤ ·) sel))))
            ∧ (sel.foldl (fun new_root selection =>
                new_root.restrict selection true) c.root ≠ Node.Leaf false →
              ∃ o, c.complete_outfit sel = some (Except.ok o))))) := by
  constructor
  · intro hunk
    have h1 := find_unknown_some hunk
    rw [Closet.complete_outfit, validateSelections, h1]
  · intro hk
    have h1 := find_unknown_none hk
    obtain ⟨hiff, hsome⟩ := find_duplicate_spec c sel hk
    constructor
    · rintro ⟨f, hf⟩
      have hd : ∃ l, find_duplicate_items c sel = some (some l) := by
        have hs := find_duplicate_items_total c sel hk
        cases hdv : find_duplicate_items c sel with
        | none =>
          rw [hdv] at hs
          simp at hs
        | some r =>
          cases r with
          | none =>
            have h2 := (hiff.mp hdv) f
            omega
          | some l => exact ⟨l, rfl⟩
      obtain ⟨l, hd⟩ := hd
      obtain ⟨hne, hpay, hcompl⟩ := hsome l hd
      refine ⟨l, ?_, hne, hpay, hcompl⟩
      rw [Closet.complete_outfit, validateSelections, h1, hd]
    · intro hle
      have hd : find_duplicate_items c sel = some none := hiff.mpr hle
      constructor
      · constructor
        · intro hres
          have hcf : find_conflicting_items c sel
              = some (List.insertionSort (· ≤ ·) sel) := by
            rw [find_conflicting_items, if_pos hres]
          rw [Closet.complete_outfit, validateSelections, h1, hd, hcf]
        · intro hcomp
          by_contra hres
          have hcf : find_conflicting_items c sel = none := by
            rw [find_conflicting_items, if_neg hres]
          rw [Closet.complete_outfit, validateSelections, h1, hd, hcf] at hcomp
          simp at hcomp
      · intro hres
        have hcf : find_conflicting_items c sel = none := by
          rw [find_conflicting_items, if_neg hres]
        exact ⟨_, by rw [Closet.complete_outfit, validateSelections, h1, hd, hcf]⟩

/-- Witness for C3 at a concrete closet: the unknown-items branch fires for
a selection absent from the index. -/
theorem complete_outfit_validation_order_witness :
    (∃ s ∈ [99], closetC1.get_family s = none)
    ∧ closetC1.complete_outfit [99] = some (Except.error (OutfitError.UnknownItems
        (List.filter (fun item => (closetC1.get_family item).isNone) [99]))) :=
  ⟨⟨99, by simp, by rfl⟩,
    (complete_outfit_validation_order closetC1 [99]).1 ⟨99, by simp, by rfl⟩⟩

/-! ### Illegal same-family rules (`find_illegal_rules`) -/

theorem mem_dedupBySndAux {last : Family × List Item}
    {l : List (Family × List Item)} {p : Family × List Item}
    (h : p ∈ dedupBySndAux last l) : p ∈ l := by
  induction l generalizing last with
  | nil => simp [dedupBySndAux] at h
  | cons y rest ih =>
    rw [dedupBySndAux] at h
    split at h
    · exact List.mem_cons.mpr (Or.inr (ih h))
    · rcases List.mem_cons.mp h with h1 | h1
      · exact List.mem_cons.mpr (Or.inl h1)
      · exact List.mem_cons.mpr (Or.inr (ih h1))

theorem mem_dedupBySnd {l : List (Family × List Item)} {p : Family × List Item}
    (h : p ∈ dedupBySnd l) : p ∈ l := by
  cases l with
  | nil => simpa [dedupBySnd] using h
  | cons x rest =>
    rw [dedupBySnd] at h
    rcases List.mem_cons.mp h with h1 | h1
    · exact List.mem_cons.mpr (Or.inl h1)
    · exact List.mem_cons.mpr (Or.inr (mem_dedupBySndAux h1))

theorem chain_dedupBySndAux (last : Family × List Item)
    (l : List (Family × List Item)) :
    List.Chain' (fun p q => p.2 ≠ q.2) (last :: dedupBySndAux last l) := by
  induction l generalizing last with
  | nil => simp [dedupBySndAux]
  | cons y rest ih =>
    rw [dedupBySndAux]
    split
    · exact ih last
    · next hne => exact List.chain'_cons.mpr ⟨hne, ih y⟩

theorem chain_dedupBySnd (l : List (Family × List Item)) :
    List.Chain' (fun p q => p.2 ≠ q.2) (dedupBySnd l) := by
  cases l with
  | nil => simp [dedupBySnd]
  | cons x rest => exact chain_dedupBySndAux x rest

theorem mapOpt_mem {α β : Type} {f : α → Option β} {l : List α} {bs : List β}
    (h : mapOpt f l = some bs) : ∀ b ∈ bs, ∃ a ∈ l, f a = some b := by
  induction l generalizing bs with
  | nil =>
    simp only [mapOpt, Option.some.injEq] at h
    rw [← h]
    simp
  | cons a l ih =>
    rw [mapOpt] at h
    cases hfa : f a with
    | none =>
      rw [hfa] at h
      simp at h
    | some v =>
      rw [hfa] at h
      cases hml : mapOpt f l with
      | none =>
        rw [hml] at h
        simp at h
      | some bs0 =>
        rw [hml] at h
        simp only [Option.map_some', Option.some.injEq] at h
        intro b hb
        rw [← h] at hb
        rcases List.mem_cons.mp hb with h1 | h1
        · exact ⟨a, by simp, by rw [hfa, h1]⟩
        · obtain ⟨a', ha', hfa'⟩ := ih hml b h1
          exact ⟨a', by simp [ha'], hfa'⟩

theorem find_illegal_rules_elim {rules : List (Item × List Item)}
    {ii : List (Item × Family)} {l : List (Family × List Item)}
    (h : find_illegal_rules rules ii = some l) :
    List.Chain' (fun p q => p.2 ≠ q.2) l
    ∧ ∀ p ∈ l, ∃ x y, p.2 = [x, y] ∧ x ≤ y
        ∧ btreeGet x ii = some p.1 ∧ btreeGet y ii = some p.1 := by
  rw [find_illegal_rules] at h
  cases hm : mapOpt (fun r =>
      (btreeGet r.1 ii).bind (fun selection_family =>
        (mapOpt (fun item =>
            (btreeGet item ii).map (fun item_family =>
              if selection_family = item_family then
                some (selection_family, List.insertionSort (· ≤ ·) [r.1, item])
              else none))
          r.2).map (fun opts => opts.dedup)))
    rules with
  | none =>
    rw [hm] at h
    simp at h
  | some ll =>
    rw [hm] at h
    simp only [Option.map_some', Option.some.injEq] at h
    refine ⟨h ▸ chain_dedupBySnd _, ?_⟩
    intro p hp
    rw [← h] at hp
    have hp2 := mem_dedupBySnd hp
    obtain ⟨a, ha, haid⟩ := List.mem_filterMap.mp hp2
    obtain ⟨opts, hopts, hmemopts⟩ := List.mem_flatten.mp ha
    obtain ⟨r, hr, hgr⟩ := mapOpt_mem hm opts hopts
    cases hsf : btreeGet r.1 ii with
    | none =>
      rw [hsf] at hgr
      simp at hgr
    | some sf =>
      rw [hsf] at hgr
      simp only [Option.some_bind] at hgr
      cases hm2 : mapOpt (fun item =>
          (btreeGet item ii).map (fun item_family =>
            if sf = item_family then
              some (sf, List.insertionSort (· ≤ ·) [r.1, item])
            else none))
        r.2 with
      | none =>
        rw [hm2] at hgr
        simp at hgr
      | some opts0 =>
        rw [hm2] at hgr
        simp only [Option.map_some', Option.some.injEq] at hgr
        rw [← hgr] at hmemopts
        have haid2 : a = some p := haid
        rw [haid2] at hmemopts
        have hmem0 := List.mem_dedup.mp hmemopts
        obtain ⟨item, hitem, hg2⟩ := mapOpt_mem hm2 (some p) hmem0
        cases hitf : btreeGet item ii with
        | none =>
          rw [hitf] at hg2
          simp at hg2
        | some itf =>
          rw [hitf] at hg2
          simp only [Option.map_some', Option.some.injEq] at hg2
          split at hg2
          · next hsfitf =>
            simp only [Option.some.injEq] at hg2
            by_cases hcmp : r.1 ≤ item
            · refine ⟨r.1, item, ?_, hcmp, ?_, ?_⟩
              · rw [← hg2]
                simp [List.insertionSort, List.orderedInsert, hcmp]
              · rw [← hg2, hsf]
              · rw [← hg2, hitf, hsfitf]
            · have hle : item ≤ r.1 := Nat.le_of_lt (Nat.lt_of_not_le hcmp)
              refine ⟨item, r.1, ?_, hle, ?_, ?_⟩
              · rw [← hg2]
                simp [List.insertionSort, List.orderedInsert, hcmp]
              · rw [← hg2, hitf, hsfitf]
              · rw [← hg2, hsf]
          · exact absurd hg2 (by simp)

/-- The builder of claim C5's counterexample: one family (0) with items
0, 1, 2, 3 and the two same-family exclusion pairs (0, 3) and (1, 2),
whose sorted pairs interleave in the exclusion map's key order. -/
def builderC5 : ClosetBuilder :=
  (((((ClosetBuilder.new.add_item 0 0).add_item 0 1).add_item 0 2).add_item 0 3).add_exclusion_rule 0 3).add_exclusion_rule 1 2

/-- C5 counterexample: the claim states that same-family rule errors are
de-duplicated by the unordered item pair, but `Vec::dedup_by` only removes
consecutive duplicates: with the interleaved illegal pairs (0, 3) and
(1, 2) the pair `[0, 3]` is reported twice. -/
theorem find_illegal_rules_duplicate_pair :
    builderC5.build = some (Except.error (Error.ExclusionError
      [(0, [0, 3]), (0, [1, 2]), (0, [0, 3])]))
    ∧ ¬([(0, [0, 3]), (0, [1, 2]), (0, [0, 3])] :
        List (Family × List Item)).Nodup :=
  ⟨by rfl, by decide⟩

/-- C5 (amended): `ClosetBuilder::build` validates before constructing the
diagram and reports only the first-encountered error class in the fixed
order `ConflictingFamilies`, `InclusionError`, `ExclusionError`; each
illegal-rule entry carries the shared family together with the two items
sorted; and the entries are de-duplicated only between adjacent positions
(no two consecutive entries share an item pair), so non-adjacent repeats of
a pair may remain. -/
theorem closet_builder_validation_priority (b : ClosetBuilder)
    (cf : List (Item × List Family)) (hcf : b.find_conflicting_families = some cf)
    (il : List (Family × List Item)) (hil : b.find_illegal_include_rules = some il)
    (el : List (Family × List Item)) (hel : b.find_illegal_exclude_rules = some el) :
    (cf ≠ [] → b.build = some (Except.error (Error.ConflictingFamilies cf)))
    ∧ (cf = [] → il ≠ [] → b.build = some (Except.error (Error.InclusionError il)))
    ∧ (cf = [] → il = [] → el ≠ [] →
        b.build = some (Except.error (Error.ExclusionError el)))
    ∧ (cf = [] → il = [] → el = [] →
        b.build = some (Except.ok ⟨b.item_index, b.buildRoot⟩))
    ∧ (∀ p ∈ il, ∃ x y, p.2 = [x, y] ∧ x ≤ y
        ∧ btreeGet x b.item_index = some p.1 ∧ btreeGet y b.item_index = some p.1)
    ∧ (∀ p ∈ el, ∃ x y, p.2 = [x, y] ∧ x ≤ y
        ∧ btreeGet x b.item_index = some p.1 ∧ btreeGet y b.item_index = some p.1)
    ∧ List.Chain' (fun p q => p.2 ≠ q.2) il
    ∧ List.Chain' (fun p q => p.2 ≠ q.2) el := by
  obtain ⟨hchainI, hpayI⟩ := find_illegal_rules_elim hil
  obtain ⟨hchainE, hpayE⟩ := find_illegal_rules_elim hel
  refine ⟨?_, ?_, ?_, ?_, hpayI, hpayE, hchainI, hchainE⟩
  · intro hne
    simp [ClosetBuilder.build, ClosetBuilder.validate, hcf, hil, hel, hne]
  · intro hcfe hne
    simp [ClosetBuilder.build, ClosetBuilder.validate, hcf, hil, hel, hcfe, hne]
  · intro hcfe hile hne
    simp [ClosetBuilder.build, ClosetBuilder.validate, hcf, hil, hel, hcfe, hile, hne]
  · intro hcfe hile hele
    simp [ClosetBuilder.build, ClosetBuilder.validate, hcf, hil, hel, hcfe, hile, hele]

/-- The builder of claim C5's witness: the same item declared under two
families, firing `ConflictingFamilies`. -/
def builderC5w : ClosetBuilder :=
  (ClosetBuilder.new.add_item 0 5).add_item 1 5

/-- Witness for C5 at a concrete builder with a conflicting family. -/
theorem closet_builder_validation_priority_witness :
    builderC5w.find_conflicting_families = some [(5, [0, 1])]
    ∧ builderC5w.find_illegal_include_rules = some []
    ∧ builderC5w.find_illegal_exclude_rules = some []
    ∧ builderC5w.build
        = some (Except.error (Error.ConflictingFamilies [(5, [0, 1])])) :=
  ⟨by rfl, by rfl, by rfl,
    (closet_builder_validation_priority builderC5w [(5, [0, 1])] (by rfl)
        [] (by rfl) [] (by rfl)).1 (by decide)⟩

/-! ### Enumeration: the trees stack machine and the family it represents -/

theorem treesAux_cons (n : Node) :
    ∀ (p : List Item) (rest : List (Node × List Item)),
      treesAux ((n, p) :: rest) = treesApp n p ++ treesAux rest := by
  induction n with
  | Leaf b =>
    intro p rest
    cases b
    · rw [treesAux, treesApp]
      simp
    · rw [treesAux, treesApp]
      simp
  | Branch i lo hi ihlo ihhi =>
    intro p rest
    rw [treesAux, ihhi, ihlo, treesApp]
    simp [List.append_assoc]

theorem trees_eq_treesApp (n : Node) : trees n = treesApp n [] := by
  rw [trees, treesAux_cons]
  rw [treesAux]
  simp

theorem treesApp_eq (n : Node) : ∀ p, treesApp n p = (treesRec n).map (p ++ ·) := by
  induction n with
  | Leaf b =>
    intro p
    cases b <;> simp [treesApp, treesRec]
  | Branch i lo hi ihlo ihhi =>
    intro p
    rw [treesApp, treesRec, ihhi, ihlo, List.map_append, List.map_map]
    congr 1
    refine List.map_congr_left fun s _ => ?_
    show (p ++ [i]) ++ s = p ++ (i :: s)
    simp

theorem trees_eq_treesRec (n : Node) : trees n = treesRec n := by
  rw [trees_eq_treesApp, treesApp_eq]
  simp

theorem mem_treesRec_vars {n : Node} :
    ∀ l ∈ treesRec n, ∀ x ∈ l, n.hasVar x = true := by
  induction n with
  | Leaf b =>
    intro l h
    cases b <;> simp [treesRec] at h
    rw [h]
    simp
  | Branch i lo hi ihlo ihhi =>
    intro l h
    rw [treesRec] at h
    rcases List.mem_append.mp h with h1 | h1
    · obtain ⟨s, hs, hls⟩ := List.mem_map.mp h1
      intro x hx
      rw [← hls] at hx
      rcases List.mem_cons.mp hx with h2 | h2
      · rw [h2]
        simp [Node.hasVar]
      · exact Node.hasVar_mono_right (ihhi s hs x h2)
    · exact fun x hx => Node.hasVar_mono_left (ihlo l h1 x hx)

theorem Node.allGt_hasVar {n : Node} {i j : Item} (hgt : n.allGt i = true)
    (h : n.hasVar j = true) : i < j := by
  induction n with
  | Leaf b => simp [Node.hasVar] at h
  | Branch k lo hi ihlo ihhi =>
    simp only [Node.allGt, Bool.and_eq_true, decide_eq_true_eq] at hgt
    simp only [Node.hasVar, Bool.or_eq_true, decide_eq_true_eq] at h
    rcases h with (h1 | h1) | h1
    · rw [h1]
      exact hgt.1.1
    · exact ihlo hgt.1.2 h1
    · exact ihhi hgt.2 h1

theorem modelsOf_vars {n : Node} :
    ∀ s ∈ modelsOf n, ∀ x ∈ s, n.hasVar x = true := by
  induction n with
  | Leaf b =>
    intro s h
    cases b <;> simp [modelsOf] at h
    rw [h]
    simp
  | Branch i lo hi ihlo ihhi =>
    intro s h
    rw [modelsOf] at h
    rcases Finset.mem_union.mp h with h1 | h1
    · exact fun x hx => Node.hasVar_mono_left (ihlo s h1 x hx)
    · obtain ⟨t, ht, hts⟩ := Finset.mem_image.mp h1
      intro x hx
      rw [← hts] at hx
      rcases Finset.mem_insert.mp hx with h2 | h2
      · rw [h2]
        simp [Node.hasVar]
      · exact Node.hasVar_mono_right (ihhi t ht x h2)

theorem treesRec_spec (n : Node) (h : n.ordered = true) :
    ((treesRec n).map List.toFinset).Nodup
    ∧ (∀ s : Finset Item, s ∈ (treesRec n).map List.toFinset ↔ s ∈ modelsOf n)
    ∧ (treesRec n).length = (modelsOf n).card := by
  induction n with
  | Leaf b =>
    cases b
    · refine ⟨by simp [treesRec], fun s => by simp [treesRec, modelsOf], by simp [treesRec, modelsOf]⟩
    · refine ⟨by simp [treesRec], fun s => by simp [treesRec, modelsOf], by simp [treesRec, modelsOf]⟩
  | Branch i lo hi ihlo ihhi =>
    simp only [Node.ordered, Bool.and_eq_true] at h
    obtain ⟨⟨⟨hgtlo, hgthi⟩, holo⟩, hohi⟩ := h
    obtain ⟨ndlo, ifflo, cardlo⟩ := ihlo holo
    obtain ⟨ndhi, iffhi, cardhi⟩ := ihhi hohi
    have hlonoti : ∀ s ∈ (treesRec lo).map List.toFinset, i ∉ s := by
      intro s hs hmem
      obtain ⟨l, hl, hls⟩ := List.mem_map.mp hs
      rw [← hls] at hmem
      exact absurd (Node.allGt_hasVar hgtlo
        (mem_treesRec_vars l hl i (List.mem_toFinset.mp hmem))) (lt_irrefl i)
    have hhinoti : ∀ s ∈ (treesRec hi).map List.toFinset, i ∉ s := by
      intro s hs hmem
      obtain ⟨l, hl, hls⟩ := List.mem_map.mp hs
      rw [← hls] at hmem
      exact absurd (Node.allGt_hasVar hgthi
        (mem_treesRec_vars l hl i (List.mem_toFinset.mp hmem))) (lt_irrefl i)
    have hmodlonoti : ∀ s ∈ modelsOf lo, i ∉ s := by
      intro s hs hmem
      exact absurd (Node.allGt_hasVar hgtlo (modelsOf_vars s hs i hmem)) (lt_irrefl i)
    have hmodhinoti : ∀ s ∈ modelsOf hi, i ∉ s := by
      intro s hs hmem
      exact absurd (Node.allGt_hasVar hgthi (modelsOf_vars s hs i hmem)) (lt_irrefl i)
    have hmapsplit : (treesRec (Node.Branch i lo hi)).map List.toFinset
        = ((treesRec hi).map List.toFinset).map (insert i)
          ++ (treesRec lo).map List.toFinset := by
      rw [treesRec, List.map_append, List.map_map, List.map_map]
      congr 1
      refine List.map_congr_left fun l _ => ?_
      simp
    refine ⟨?_, ?_, ?_⟩
    · rw [hmapsplit]
      refine List.Nodup.append ?_ ndlo ?_
      · refine List.Nodup.map_on ?_ ndhi
        intro x hx y hy hxy
        have hx' := hhinoti x hx
        have hy' := hhinoti y hy
        rw [← Finset.erase_insert hx', ← Finset.erase_insert hy', hxy]
      · intro s hs
        obtain ⟨t, ht, hts⟩ := List.mem_map.mp hs
        intro hcon
        exact hlonoti s hcon (by rw [← hts]; exact Finset.mem_insert_self i t)
    · intro s
      rw [hmapsplit, modelsOf]
      constructor
      · intro hs
        rcases List.mem_append.mp hs with h1 | h1
        · obtain ⟨t, ht, hts⟩ := List.mem_map.mp h1
          exact Finset.mem_union.mpr
            (Or.inr (Finset.mem_image.mpr ⟨t, (iffhi t).mp ht, hts⟩))
        · exact Finset.mem_union.mpr (Or.inl ((ifflo s).mp h1))
      · intro hs
        rcases Finset.mem_union.mp hs with h1 | h1
        · exact List.mem_append.mpr (Or.inr ((ifflo s).mpr h1))
        · obtain ⟨t, ht, hts⟩ := Finset.mem_image.mp h1
          exact List.mem_append.mpr
            (Or.inl (List.mem_map.mpr ⟨t, (iffhi t).mpr ht, hts⟩))
    · rw [treesRec, modelsOf]
      rw [List.length_append, List.length_map]
      have hd : Disjoint (modelsOf lo) ((modelsOf hi).image (insert i)) := by
        rw [Finset.disjoint_left]
        intro s hs hsi
        obtain ⟨t, ht, hts⟩ := Finset.mem_image.mp hsi
        exact hmodlonoti s hs (by rw [← hts]; exact Finset.mem_insert_self i t)
      have hinj : Set.InjOn (insert i) ((modelsOf hi : Finset (Finset Item)) : Set (Finset Item)) := by
        intro x hx y hy hxy
        rw [← Finset.erase_insert (hmodhinoti x hx),
          ← Finset.erase_insert (hmodhinoti y hy), hxy]
      rw [Finset.card_union_of_disjoint hd, Finset.card_image_of_injOn hinj]
      omega

/-- C6: for every root node satisfying the data model's orderedness
invariant (spec §3, the reducedness/orderedness guarantee the spec appeals
to), `trees(root)` emits every satisfying assignment of the represented
family — the set of branch variables taken on high edges along a path to
the `Always` leaf — exactly once: the emitted sets are duplicate-free, they
are exactly the members of the represented family, the number of emitted
sequences equals the model count, and paths reaching `Never` contribute
nothing. -/
theorem trees_enumeration_complete (n : Node) (h : n.ordered = true) :
    ((trees n).map List.toFinset).Nodup
    ∧ (∀ s : Finset Item, s ∈ (trees n).map List.toFinset ↔ s ∈ modelsOf n)
    ∧ (trees n).length = (modelsOf n).card := by
  rw [trees_eq_treesRec]
  exact treesRec_spec n h

/-- Witness for C6 at a concrete ordered node. -/
theorem trees_enumeration_complete_witness :
    (Node.Branch 0 (Node.Leaf true) (Node.Branch 1 (Node.Leaf false) (Node.Leaf true))).ordered
      = true
    ∧ (((trees (Node.Branch 0 (Node.Leaf true)
          (Node.Branch 1 (Node.Leaf false) (Node.Leaf true)))).map List.toFinset).Nodup
      ∧ (∀ s : Finset Item, s ∈ (trees (Node.Branch 0 (Node.Leaf true)
          (Node.Branch 1 (Node.Leaf false) (Node.Leaf true)))).map List.toFinset
          ↔ s ∈ modelsOf (Node.Branch 0 (Node.Leaf true)
              (Node.Branch 1 (Node.Leaf false) (Node.Leaf true))))
      ∧ (trees (Node.Branch 0 (Node.Leaf true)
          (Node.Branch 1 (Node.Leaf false) (Node.Leaf true)))).length
          = (modelsOf (Node.Branch 0 (Node.Leaf true)
              (Node.Branch 1 (Node.Leaf false) (Node.Leaf true)))).card) :=
  ⟨by decide,
    trees_enumeration_complete
      (Node.Branch 0 (Node.Leaf true) (Node.Branch 1 (Node.Leaf false) (Node.Leaf true)))
      (by decide)⟩
